import Mathlib

/-!
Shallow embedding of the hpkl dependency resolver (pkg/app resolver code):
the data model, `MajorVersionPackage`, `Deduplicate`, `Resolve`, the two
transport resolvers and the cache existence check, together with theorems
checking the specification claims against them.

Go maps are embedded as association lists over `String` keys (`insertA`
overwrites in place like a Go map assignment), Go byte slices as `String`,
and Go `(T, error)` returns as `Except GoError T`, where a `panic` (such as
`semver.MustParse` on invalid input) is a distinguished failure mode.
-/

namespace Hpkl

/-- Go-style failure channel: `fail` is an error value returned to the caller,
`panicked` is a runtime panic (for example `semver.MustParse` on invalid
input), and `outOfFuel` is an artifact of the embedding marking exhaustion of
the recursion allowance; the termination theorems prove it unreachable for
adequately chosen fuel. -/
inductive GoError where
  | fail (msg : String)
  | panicked (msg : String)
  | outOfFuel
  deriving DecidableEq, Repr

abbrev ExceptG (α : Type) : Type := Except GoError α

/-- Lookup in an association list, the embedding of a Go map read. -/
def lookupA {α : Type} : List (String × α) → String → Option α
  | [], _ => none
  | (k1, v) :: rest, k => if k1 = k then some v else lookupA rest k

/-- Insert into an association list, overwriting in place an existing binding,
the embedding of a Go map assignment. -/
def insertA {α : Type} : List (String × α) → String → α → List (String × α)
  | [], k, v => [(k, v)]
  | (k1, v1) :: rest, k, v =>
    if k1 = k then (k, v) :: rest else (k1, v1) :: insertA rest k v

/-- Merge the second map into the first, later entries overwriting, the
embedding of a Go loop writing every entry of one map into another. -/
def unionA {α : Type} (l m : List (String × α)) : List (String × α) :=
  m.foldl (fun acc p => insertA acc p.1 p.2) l

def keysA {α : Type} (l : List (String × α)) : List String := l.map Prod.fst

/-- The keys of the association list are pairwise distinct, as in a Go map. -/
def NodupKeys {α : Type} (l : List (String × α)) : Prop := (keysA l).Nodup

/-- Three-way comparison on naturals, written out so that it reduces and its
case analysis is direct. -/
def natCompare (a b : Nat) : Ordering :=
  if a < b then Ordering.lt else if b < a then Ordering.gt else Ordering.eq

def charCompare (a b : Char) : Ordering := natCompare a.toNat b.toNat

/-- Lexicographic combination: the second comparison breaks ties of the
first. -/
def ordThen (a b : Ordering) : Ordering :=
  match a with
  | Ordering.eq => b
  | _ => a

/-- Lexicographic comparison of lists, a shorter list ordering below any list
it is a proper prefix of. -/
def listCompareWith {α : Type} (f : α → α → Ordering) : List α → List α → Ordering
  | [], [] => Ordering.eq
  | [], _ :: _ => Ordering.lt
  | _ :: _, [] => Ordering.gt
  | a :: as, b :: bs =>
    match f a b with
    | Ordering.eq => listCompareWith f as bs
    | o => o

def decDigitsVal : List Char → Nat → Option Nat
  | [], acc => some acc
  | c :: cs, acc =>
    if c.isDigit then decDigitsVal cs (acc * 10 + (c.toNat - 48)) else none

/-- Decimal value of a nonempty all-digit character list; `none` otherwise. -/
def decToNat (l : List Char) : Option Nat :=
  match l with
  | [] => none
  | _ :: _ => decDigitsVal l 0

/-- Split a character list at the first occurrence of a nonempty pattern,
returning the part before and the part after it, or `none` when the pattern
does not occur. -/
def breakAtSub (pat : List Char) : List Char → Option (List Char × List Char)
  | [] => none
  | c :: cs =>
    if pat.isPrefixOf (c :: cs) then some ([], (c :: cs).drop pat.length)
    else
      match breakAtSub pat cs with
      | none => none
      | some (a, b) => some (c :: a, b)

def takeUntilCh (sep : Char) (l : List Char) : List Char :=
  l.takeWhile (fun c => c ≠ sep)

def dropUntilCh (sep : Char) : List Char → List Char
  | [] => []
  | c :: cs => if c = sep then c :: cs else dropUntilCh sep cs

def splitOnCh (sep : Char) : List Char → List (List Char)
  | [] => [[]]
  | c :: cs =>
    let r := splitOnCh sep cs
    if c = sep then [] :: r
    else
      match r with
      | [] => [[c]]
      | h :: t => (c :: h) :: t

/-- Replace the first occurrence of `pat` by `rep`, as `strings.Replace` with
count 1 does. -/
def replaceFirstList (pat rep : List Char) : List Char → List Char
  | [] => []
  | c :: cs =>
    if pat.isPrefixOf (c :: cs) then rep ++ (c :: cs).drop pat.length
    else c :: replaceFirstList pat rep cs

def strReplaceFirst (s pat rep : String) : String :=
  String.mk (replaceFirstList pat.toList rep.toList s.toList)

/-- Embedding of `strings.HasSuffix`. -/
def strEndsWith (s suf : String) : Bool := suf.toList.isSuffixOf s.toList

/-- Embedding of `strings.Contains`. -/
def strContainsSub (s sub : String) : Bool :=
  s.toList.tails.any (fun t => sub.toList.isPrefixOf t)

/-- Lowercase base-16 rendering of a natural, the `%x` format verb used by the
source to render the major version. -/
def toHex (n : Nat) : String := String.mk (Nat.toDigits 16 n)

/-- A parsed semantic version: numeric core and dotted prerelease
identifiers, an empty identifier list meaning a release version. -/
structure SemVer where
  major : Nat
  minor : Nat
  patch : Nat
  pre : List String
  deriving DecidableEq, Repr

def validPreId (s : String) : Bool :=
  !s.toList.isEmpty && s.toList.all (fun c => c.isAlphanum || c = '-')

/-- Modelled from the spec: parsing a semantic version string as the external
Masterminds semver library (not part of this repository) does — an optional
leading v, build metadata after a plus sign ignored, a dotted numeric core of
one to three components with missing components zero, and an optional
prerelease after the first dash. -/
def semverParseList (l0 : List Char) : Option SemVer :=
  if l0.isEmpty then none
  else
    let l1 := if l0.head? = some 'v' then l0.tail else l0
    let l2 := takeUntilCh '+' l1
    let core := takeUntilCh '-' l2
    let preRaw := (dropUntilCh '-' l2).tail
    let pre :=
      if preRaw.isEmpty then []
      else (splitOnCh '.' preRaw).map (fun cs => String.mk cs)
    if pre.all validPreId then
      match (splitOnCh '.' core).map decToNat with
      | [some a] => some ⟨a, 0, 0, pre⟩
      | [some a, some b] => some ⟨a, b, 0, pre⟩
      | [some a, some b, some c] => some ⟨a, b, c, pre⟩
      | _ => none
    else none

def semverParse (s : String) : Option SemVer := semverParseList s.toList

/-- Modelled from the spec: `semver.MustParse` panics, rather than returning
an error, when its argument is not a valid semantic version. -/
def semverMustParse (s : String) : ExceptG SemVer :=
  match semverParse s with
  | some v => Except.ok v
  | none => Except.error (GoError.panicked "Invalid Semantic Version")

/-- Semver precedence of a single prerelease identifier pair: numeric
identifiers compare numerically and order below alphanumeric ones, which
compare lexically. -/
def identCompare (a b : String) : Ordering :=
  match decToNat a.toList, decToNat b.toList with
  | some m, some n => natCompare m n
  | some _, none => Ordering.lt
  | none, some _ => Ordering.gt
  | none, none => listCompareWith charCompare a.toList b.toList

/-- Semver precedence of prerelease identifier lists: a release (empty list)
outranks any prerelease; two prereleases compare lexicographically. -/
def preCompare (a b : List String) : Ordering :=
  match a, b with
  | [], [] => Ordering.eq
  | [], _ :: _ => Ordering.gt
  | _ :: _, [] => Ordering.lt
  | _, _ => listCompareWith identCompare a b

/-- Semver precedence: numeric core compared componentwise, prerelease
breaking ties. -/
def semverCompare (a b : SemVer) : Ordering :=
  ordThen (natCompare a.major b.major)
    (ordThen (natCompare a.minor b.minor)
      (ordThen (natCompare a.patch b.patch) (preCompare a.pre b.pre)))

/-- Embedding of `Version.GreaterThan` of the semver library. -/
def semverGreaterThan (a b : SemVer) : Bool := semverCompare a b == Ordering.gt

/-- Modelled from the spec: the scheme, host and path of a parsed URL, the
shape `net/url` exposes for the package URIs this program handles. -/
structure GoUrl where
  scheme : String
  host : String
  path : String
  deriving DecidableEq, Repr

/-- Modelled from the spec: Go's `url.Parse` restricted to the
scheme://host/path shape that package URIs use; strings containing ASCII
control characters fail to parse, as in `net/url`, and a URL without a
scheme separator parses with an empty scheme and the whole input as path. -/
def urlParse (s : String) : Option GoUrl :=
  if s.toList.any (fun c => c.toNat < 32) then none
  else
    match breakAtSub ("://".toList) s.toList with
    | none => some { scheme := "", host := "", path := s }
    | some (sch, rest) =>
      if sch.isEmpty then none
      else
        some { scheme := String.mk sch,
               host := String.mk (takeUntilCh '/' rest),
               path := String.mk (rest.drop (takeUntilCh '/' rest).length) }

/-- Rendering of a parsed URL back to a string, the `URL.String` call of the
source. -/
def GoUrl.render (u : GoUrl) : String :=
  if u.scheme = "" then u.path else u.scheme ++ "://" ++ u.host ++ u.path

structure Checksums where
  sha256 : String
  deriving DecidableEq, Repr

structure Dependency where
  uri : String
  checksums : Option Checksums
  name : String
  projectFileUri : String
  deriving DecidableEq, Repr

/-- The resolver kind stamped on metadata; `oci` is the zero value, as `OCI`
is first in the source's iota block. -/
inductive ResolverType where
  | oci
  | http
  deriving DecidableEq, Repr

structure Metadata where
  name : String
  packageUri : String
  version : String
  packageZipUrl : String
  packageZipChecksums : Checksums
  authors : List String
  dependencies : List (String × Dependency)
  resolverType : ResolverType
  plainHttp : Bool
  checksum : String
  source : String
  deriving DecidableEq, Repr

/-- The JSON-visible fields of a metadata document; the fields tagged
`json:"-"` in the source (ResolverType, PlainHttp, Checksum, Source) are
absent from the wire format and take their zero values on unmarshalling. -/
structure WireMetadata where
  name : String
  packageUri : String
  version : String
  packageZipUrl : String
  packageZipChecksums : Checksums
  authors : List String
  dependencies : List (String × Dependency)
  deriving DecidableEq, Repr

/-- A freshly unmarshalled metadata value: wire fields copied, the
non-serialized fields at their Go zero values. -/
def Metadata.ofWire (w : WireMetadata) : Metadata :=
  { name := w.name, packageUri := w.packageUri, version := w.version,
    packageZipUrl := w.packageZipUrl,
    packageZipChecksums := w.packageZipChecksums, authors := w.authors,
    dependencies := w.dependencies, resolverType := ResolverType.oci,
    plainHttp := false, checksum := "", source := "" }

/-- Modelled from the spec: stands in for the hex-encoded sha256 digest of
the raw document bytes (crypto/sha256 is external to the repository); the
claims depend only on this field being filled deterministically. -/
def sha256Hex (body : String) : String := "sha256(" ++ body ++ ")"

/-- Modelled from the spec: `pklutils.PklGetRelativePath` is not under src/;
the spec only requires a deterministic, stable directory derived from the
base path and the package URI. -/
def pklGetRelativePath (basePath : String) (u : GoUrl) : String :=
  basePath ++ "/" ++ u.host ++ u.path

/-- Modelled from the spec: `pklutils.PklUriToRef` is not under src/; it maps
a package URI to a registry reference and fails on an unparsable URI. -/
def pklUriToRef (uri : String) : ExceptG String :=
  match urlParse uri with
  | none => Except.error (GoError.fail ("invalid uri " ++ uri))
  | some u => Except.ok (u.host ++ u.path)

/-- Embedding of `Resolver.MajorVersionPackage`: parse the package URI,
rewrite its scheme to `package`, strip the first occurrence of the versioned
suffix from the path, and append the major version rendered with the `%x`
(hexadecimal) format verb, exactly as the source does. The
`semver.MustParse` call panics on an invalid version. -/
def MajorVersionPackage (metadata : Metadata) : ExceptG String :=
  match urlParse metadata.packageUri with
  | none => Except.error (GoError.fail ("parse " ++ metadata.packageUri))
  | some baseUri =>
    let mapUri1 := { baseUri with scheme := "package" }
    let mapUri2 :=
      { mapUri1 with
        path := strReplaceFirst mapUri1.path ("@" ++ metadata.version) "" }
    match semverMustParse metadata.version with
    | Except.error e => Except.error e
    | Except.ok versionParsed =>
      let majorVersion := "@" ++ toHex versionParsed.major
      let mapUri3 := { mapUri2 with path := mapUri2.path ++ majorVersion }
      Except.ok (GoUrl.render mapUri3)

/-- The loop of `Resolver.Deduplicate` building the map keyed by
major-version package identity: the first member of a group enters it, a
later member replaces the incumbent exactly when its version is strictly
greater under semver precedence. -/
def dedupGo : List (String × Metadata) → List (String × Metadata) →
    ExceptG (List (String × Metadata))
  | [], versioned => Except.ok versioned
  | (_, dep) :: rest, versioned =>
    match MajorVersionPackage dep with
    | Except.error e => Except.error e
    | Except.ok depVersion =>
      match lookupA versioned depVersion with
      | none => dedupGo rest (insertA versioned depVersion dep)
      | some ex =>
        match semverMustParse dep.version with
        | Except.error e => Except.error e
        | Except.ok verDep =>
          match semverMustParse ex.version with
          | Except.error e => Except.error e
          | Except.ok verEx =>
            if semverGreaterThan verDep verEx then
              dedupGo rest (insertA versioned depVersion dep)
            else dedupGo rest versioned

/-- The final loop of `Resolver.Deduplicate`: re-key each surviving entry by
its full package URI. -/
def rekey (versioned : List (String × Metadata)) : List (String × Metadata) :=
  versioned.foldl (fun acc p => insertA acc p.2.packageUri p.2) []

/-- Embedding of `Resolver.Deduplicate`. -/
def Deduplicate (dependecies : List (String × Metadata)) :
    ExceptG (List (String × Metadata)) :=
  match dedupGo dependecies [] with
  | Except.error e => Except.error e
  | Except.ok versioned => Except.ok (rekey versioned)

structure HttpResp where
  statusCode : Nat
  status : String
  body : String
  deriving DecidableEq, Repr

/-- The HTTP transport environment: a GET either fails (`none`, the
`http.Get` error path) or yields a response of any status. -/
abbrev Network : Type := String → Option HttpResp

/-- Modelled from the spec: `json.Unmarshal` of a metadata document is
external library behavior; a decoder yields the wire fields or fails. -/
abbrev JsonDecoder : Type := String → Option WireMetadata

/-- Embedding of `HttpResolver.ResolveMetadata`: parse the URI, force the
scheme to http or https from the process-wide and per-call plaintext flags,
GET it, treat a status strictly greater than 300 as failure with the status
text as detail, then decode the body and stamp the resolver fields. -/
def httpResolveMetadata (decode : JsonDecoder) (net : Network) (rPlain : Bool)
    (uri : String) (plainHttp : Bool) : ExceptG Metadata :=
  match urlParse uri with
  | none => Except.error (GoError.fail ("parse " ++ uri))
  | some u0 =>
    let u := { u0 with scheme := if rPlain || plainHttp then "http" else "https" }
    match net (GoUrl.render u) with
    | none => Except.error (GoError.fail ("Http get error " ++ GoUrl.render u))
    | some resp =>
      if resp.statusCode > 300 then
        Except.error (GoError.fail ("Http get Error status: " ++ resp.status))
      else
        match decode resp.body with
        | none => Except.error (GoError.fail "json unmarshal error")
        | some wire =>
          let md := Metadata.ofWire wire
          Except.ok
            { md with resolverType := ResolverType.http, source := resp.body,
                      plainHttp := plainHttp, checksum := sha256Hex resp.body }

/-- Embedding of `HttpResolver.ResolveArchive`: GET the metadata's
PackageZipUrl and return the body bytes; there is no status check and no
checksum verification in the source. -/
def httpResolveArchive (net : Network) (metadata : Metadata) : ExceptG String :=
  match net metadata.packageZipUrl with
  | none => Except.error (GoError.fail ("Get " ++ metadata.packageZipUrl))
  | some resp => Except.ok resp.body

/-- A registry pull result: the metadata artifact and the package artifact. -/
structure PullResult where
  metadataData : String
  archiveData : String
  deriving DecidableEq, Repr

/-- Modelled from the spec: a registry client takes a reference and the
with-package flag of the pull options and pulls artifacts or fails. -/
abbrev RegistryClient : Type := String → Bool → ExceptG PullResult

/-- Embedding of `OciResolver.ResolveMetadata`: map the URI to a reference,
pick the plaintext client exactly when the caller's flag is set, pull the
metadata artifact, decode it, and stamp ResolverType, Source and Checksum.
The PlainHttp field is never assigned and keeps its zero value. -/
def ociResolveMetadata (client plainClient : RegistryClient)
    (decode : JsonDecoder) (uri : String) (plainHttp : Bool) : ExceptG Metadata :=
  match pklUriToRef uri with
  | Except.error e => Except.error e
  | Except.ok ref =>
    let c := if plainHttp then plainClient else client
    match c ref false with
    | Except.error e => Except.error e
    | Except.ok result =>
      match decode result.metadataData with
      | none => Except.error (GoError.fail "json unmarshal error")
      | some wire =>
        let md := Metadata.ofWire wire
        Except.ok
          { md with resolverType := ResolverType.oci,
                    source := result.metadataData,
                    checksum := sha256Hex result.metadataData }

/-- Embedding of `OciResolver.ResolveArchive`: map the metadata's package URI
to a reference, pick the client by the metadata's own PlainHttp field, pull
the package artifact and return its bytes. -/
def ociResolveArchive (client plainClient : RegistryClient)
    (metadata : Metadata) : ExceptG String :=
  match pklUriToRef metadata.packageUri with
  | Except.error e => Except.error e
  | Except.ok ref =>
    let c := if metadata.plainHttp then plainClient else client
    match c ref true with
    | Except.error e => Except.error e
    | Except.ok result => Except.ok result.archiveData

/-- The normalization step of `Resolver.Resolve`: back-fill each embedded
dependency's Name from its map key. -/
def normalizeDeps (md : Metadata) : Metadata :=
  { md with
    dependencies := md.dependencies.map (fun p => (p.1, { p.2 with name := p.1 })) }

/-- A metadata resolver capability: URI and plaintext preference in, metadata
or error out, the shape of `DependencyResolver.ResolveMetadata`. -/
abbrev ResolverFn : Type := String → Bool → ExceptG Metadata

abbrev Cache : Type := List (String × Metadata)

/-- The loop body of `Resolver.Resolve` over one dependency map: the memo
cache is threaded explicitly (the Go receiver field mutated in place), and
the list of URIs records every metadata fetch performed, in order. Routing
and the plaintext hint follow the source: an alias ending in .oci selects
the registry resolver, an alias containing .plain passes the plaintext
preference. On a cache hit the cached metadata is reused with no fetch; on a
miss the fetched metadata is normalized, inserted into the cache, and only
then are its own dependencies resolved through `sub`, the embedding of the
recursive `r.Resolve(metadata.Dependencies)` call. -/
def resolveLoop (oci httpR : ResolverFn)
    (sub : List (String × Dependency) → Cache →
      Cache × ExceptG (List (String × Metadata) × List String)) :
    List (String × Dependency) → Cache →
    Cache × ExceptG (List (String × Metadata) × List String)
  | [], cache => (cache, Except.ok ([], []))
  | (_, dependency) :: rest, cache =>
    match lookupA cache dependency.uri with
    | some metadata =>
      match resolveLoop oci httpR sub rest cache with
      | (c2, Except.error e) => (c2, Except.error e)
      | (c2, Except.ok (res, fs)) =>
        (c2, Except.ok (unionA [(dependency.uri, metadata)] res, fs))
    | none =>
      match (if strEndsWith dependency.name ".oci" then oci else httpR)
          dependency.uri (strContainsSub dependency.name ".plain") with
      | Except.error e => (cache, Except.error e)
      | Except.ok metadata0 =>
        let metadata := normalizeDeps metadata0
        let cache1 := insertA cache dependency.uri metadata
        if metadata.dependencies.length > 0 then
          match sub metadata.dependencies cache1 with
          | (c2, Except.error e) => (c2, Except.error e)
          | (c2, Except.ok (subs, fsub)) =>
            match resolveLoop oci httpR sub rest c2 with
            | (c3, Except.error e) => (c3, Except.error e)
            | (c3, Except.ok (res, fs)) =>
              (c3, Except.ok
                (unionA (unionA [(dependency.uri, metadata)] subs) res,
                 dependency.uri :: (fsub ++ fs)))
        else
          match resolveLoop oci httpR sub rest cache1 with
          | (c2, Except.error e) => (c2, Except.error e)
          | (c2, Except.ok (res, fs)) =>
            (c2, Except.ok (unionA [(dependency.uri, metadata)] res,
                            dependency.uri :: fs))

/-- Embedding of `Resolver.Resolve`. The `fuel` argument is an embedding
artifact bounding the nesting depth of recursion into freshly fetched
dependency maps; the source recursion has no such bound, and the termination
theorem shows that a fuel of the number of resolvable URIs is never
exhausted, each nesting level being entered only after a previously uncached
URI was inserted into the memo cache. -/
def resolveGo (oci httpR : ResolverFn) :
    Nat → List (String × Dependency) → Cache →
    Cache × ExceptG (List (String × Metadata) × List String)
  | 0 => resolveLoop oci httpR (fun _ cache => (cache, Except.error GoError.outOfFuel))
  | fuel + 1 => resolveLoop oci httpR (resolveGo oci httpR fuel)

/-- The type of the recursive-resolution capability threaded through
`resolveLoop`: a dependency map and a cache in, the updated cache and either
an error or the result map with the fetch log out. -/
abbrev SubFn : Type := List (String × Dependency) → Cache →
  Cache × ExceptG (List (String × Metadata) × List String)

/-- Every URI present in the first cache is still present in the second; the
memo cache only ever grows. -/
def CachePreserves (c c' : Cache) : Prop :=
  ∀ k, (lookupA c k).isSome = true → (lookupA c' k).isSome = true

/-- Success-run properties of one resolver walk started from `cache`: the
result map has pairwise distinct keys, no URI is fetched twice, and every
fetched URI was absent from the starting cache and is present in the final
one. -/
def OkProps (cache : Cache)
    (out : Cache × ExceptG (List (String × Metadata) × List String)) : Prop :=
  ∀ res fs, out.2 = Except.ok (res, fs) →
    NodupKeys res ∧ fs.Nodup ∧
    ∀ u ∈ fs, lookupA cache u = none ∧ (lookupA out.1 u).isSome = true

/-- The outcome of an `os.Stat` call: the path exists, does not exist, or the
stat itself failed with some other error (for example a permission error). -/
inductive StatResult where
  | found
  | notExist
  | statError (msg : String)
  deriving DecidableEq, Repr

/-- Embedding of `Resolver.Exists`: parse the package URI, derive the cache
directory, and report absent only when the stat error is `os.ErrNotExist`;
every other stat outcome, including a genuine stat failure, reports the
package as already cached with a nil error. -/
def existsGo (stat : String → StatResult) (basePath : String)
    (metadata : Metadata) : ExceptG Bool :=
  match urlParse metadata.packageUri with
  | none => Except.error (GoError.fail ("parse " ++ metadata.packageUri))
  | some baseUri =>
    match stat (pklGetRelativePath basePath baseUri) with
    | StatResult.notExist => Except.ok false
    | _ => Except.ok true

/-- The number of URIs of `u` not yet present in the cache, the termination
measure justifying the fuel bound of `resolveGo`. -/
def uncov (u : List String) (cache : Cache) : Nat :=
  (u.filter (fun x => (lookupA cache x).isNone)).length

/-- A comparison is reflexively `eq`. -/
def CmpRefl {α : Type} (f : α → α → Ordering) : Prop :=
  ∀ a, f a a = Ordering.eq

/-- Arguments comparing `eq` are interchangeable on either side. -/
def CmpSubst {α : Type} (f : α → α → Ordering) : Prop :=
  ∀ a b c, f a b = Ordering.eq → f a c = f b c ∧ f c a = f c b

/-- Strict `gt` is transitive. -/
def CmpGtTrans {α : Type} (f : α → α → Ordering) : Prop :=
  ∀ a b c, f a b = Ordering.gt → f b c = Ordering.gt → f a c = Ordering.gt

/-- The version of `a` is strictly greater than the version of `b` under
semver precedence (both versions parsing). -/
def gtVer (a b : Metadata) : Prop :=
  ∃ va vb, semverParse a.version = some va ∧ semverParse b.version = some vb ∧
    semverGreaterThan va vb = true

/-- Among the entries of `s` whose major-version package identity is `k`,
none has a version strictly greater than that of `md`. -/
def GroupMax (s : List (String × Metadata)) (k : String) (md : Metadata) : Prop :=
  ∀ q ∈ s, MajorVersionPackage q.2 = Except.ok k → ¬ gtVer q.2 md

/-- Invariant of the `Deduplicate` grouping loop relative to the entries
`src` already consumed: keys are distinct, each binding maps the group key
to a member of that group drawn from `src` with maximal version, and every
group that occurs in `src` is present. -/
def DedupInv (src : List (String × Metadata))
    (versioned : List (String × Metadata)) : Prop :=
  NodupKeys versioned ∧
  (∀ p ∈ versioned, MajorVersionPackage p.2 = Except.ok p.1 ∧
    (∃ q ∈ src, q.2 = p.2) ∧ GroupMax src p.1 p.2) ∧
  (∀ q ∈ src, ∀ k, MajorVersionPackage q.2 = Except.ok k → k ∈ keysA versioned)

/-- The major-version package identity of a metadata value whose
`MajorVersionPackage` succeeds; an arbitrary default otherwise. -/
def groupKeyD (md : Metadata) : String :=
  match MajorVersionPackage md with
  | Except.ok k => k
  | Except.error _ => ""

/-- A metadata value with no dependencies for a given version of the demo
package line, used in concrete instances. -/
def exVerMd (v : String) : Metadata :=
  { name := "demo", packageUri := "pkg://example.com/demo@" ++ v, version := v,
    packageZipUrl := "", packageZipChecksums := ⟨""⟩, authors := [],
    dependencies := [], resolverType := ResolverType.http, plainHttp := false,
    checksum := "", source := "" }

def exDepA : Dependency :=
  { uri := "pkg://h/a@1.0.0", checksums := none, name := "a",
    projectFileUri := "" }

def exDepB : Dependency :=
  { uri := "pkg://h/b@1.0.0", checksums := none, name := "b",
    projectFileUri := "" }

/-- Package a of the concrete two-package cycle: a depends on b. -/
def exMdA : Metadata :=
  { name := "a", packageUri := "pkg://h/a@1.0.0", version := "1.0.0",
    packageZipUrl := "", packageZipChecksums := ⟨""⟩, authors := [],
    dependencies := [("b", exDepB)], resolverType := ResolverType.http,
    plainHttp := false, checksum := "", source := "" }

/-- Package b of the concrete two-package cycle: b depends back on a. -/
def exMdB : Metadata :=
  { name := "b", packageUri := "pkg://h/b@1.0.0", version := "1.0.0",
    packageZipUrl := "", packageZipChecksums := ⟨""⟩, authors := [],
    dependencies := [("a", exDepA)], resolverType := ResolverType.http,
    plainHttp := false, checksum := "", source := "" }

/-- A concrete metadata environment serving the cyclic packages a and b. -/
def exHttpRes : ResolverFn := fun u _ =>
  if u = "pkg://h/a@1.0.0" then Except.ok exMdA
  else if u = "pkg://h/b@1.0.0" then Except.ok exMdB
  else Except.error (GoError.fail "no such host")

/-- A registry resolver that always fails, for concrete instances whose
dependencies all route to plain HTTP. -/
def exOciRes : ResolverFn := fun _ _ => Except.error (GoError.fail "oci unavailable")

/-- The resolvable URIs of the cyclic environment. -/
def exU : List String := ["pkg://h/a@1.0.0", "pkg://h/b@1.0.0"]

def exC2Input : List (String × Metadata) :=
  [("a", exVerMd "1.0.0"), ("b", exVerMd "1.2.0"), ("c", exVerMd "2.0.0")]

def exC2Output : List (String × Metadata) :=
  [("pkg://example.com/demo@1.2.0", exVerMd "1.2.0"),
   ("pkg://example.com/demo@2.0.0", exVerMd "2.0.0")]

def exWire : WireMetadata :=
  { name := "p", packageUri := "pkg://h/p@1.0.0", version := "1.0.0",
    packageZipUrl := "", packageZipChecksums := ⟨""⟩, authors := [],
    dependencies := [] }

/-- A decoder accepting every body as the fixed wire document, standing in
for json.Unmarshal in concrete instances. -/
def exDecode : JsonDecoder := fun _ => some exWire

/-- A network whose only reachable URL answers with status 300 and a valid
body. -/
def exNet300 : Network := fun s =>
  if s = "https://h/p@1.0.0" then
    some { statusCode := 300, status := "300 Multiple Choices", body := "B" }
  else none

/-- A network whose only reachable URL answers 404. -/
def exNet404C3 : Network := fun s =>
  if s = "https://h/p@1.0.0" then
    some { statusCode := 404, status := "404 Not Found", body := "" }
  else none

/-- A network answering 404 on package x under both schemes and unreachable
elsewhere. -/
def exNet404 : Network := fun s =>
  if s = "https://h/x@1.0.0" ∨ s = "http://h/x@1.0.0" then
    some { statusCode := 404, status := "404 Not Found", body := "" }
  else none

def exDepX : Dependency :=
  { uri := "pkg://h/x@1.0.0", checksums := none, name := "x",
    projectFileUri := "" }

/-- A metadata value whose version does not parse as semver, while its
package URI parses fine. -/
def exBadVer : Metadata :=
  { name := "q", packageUri := "pkg://h/q@bad", version := "bad",
    packageZipUrl := "", packageZipChecksums := ⟨""⟩, authors := [],
    dependencies := [], resolverType := ResolverType.http, plainHttp := false,
    checksum := "", source := "" }

/-- A metadata value whose package URI contains a control character and so
fails URL parsing. -/
def exBadUri : Metadata :=
  { name := "r", packageUri := "pkg://h/r\n@1.0.0", version := "1.0.0",
    packageZipUrl := "", packageZipChecksums := ⟨""⟩, authors := [],
    dependencies := [], resolverType := ResolverType.http, plainHttp := false,
    checksum := "", source := "" }

/-- A metadata value with a two-digit major version, exposing the numeric
base of the rendered major component. -/
def exMd10 : Metadata :=
  { name := "demo", packageUri := "pkg://example.com/demo@10.0.0",
    version := "10.0.0", packageZipUrl := "", packageZipChecksums := ⟨""⟩,
    authors := [], dependencies := [], resolverType := ResolverType.http,
    plainHttp := false, checksum := "", source := "" }

def exC7In : List (String × Metadata) := [("z", exVerMd "3.0.0")]

def exC7Out : List (String × Metadata) :=
  [("pkg://example.com/demo@3.0.0", exVerMd "3.0.0")]

/-- A metadata value whose archive URL is concrete, for archive fetches. -/
def exMdZip : Metadata :=
  { name := "z", packageUri := "pkg://h/z@1.0.0", version := "1.0.0",
    packageZipUrl := "https://h/z@1.0.0/archive.zip",
    packageZipChecksums := ⟨"deadbeef"⟩, authors := [], dependencies := [],
    resolverType := ResolverType.http, plainHttp := false, checksum := "",
    source := "" }

def exRespZip : HttpResp :=
  { statusCode := 500, status := "500 Internal Server Error",
    body := "zipbytes" }

/-- A network answering the archive URL with a 500 response whose body is
the archive bytes. -/
def exNetZip : Network := fun s =>
  if s = "https://h/z@1.0.0/archive.zip" then some exRespZip else none

/-- A metadata value with a parseable package URI, for cache-existence
checks. -/
def exMdStat : Metadata :=
  { name := "s", packageUri := "pkg://h/s@1.0.0", version := "1.0.0",
    packageZipUrl := "", packageZipChecksums := ⟨""⟩, authors := [],
    dependencies := [], resolverType := ResolverType.http, plainHttp := false,
    checksum := "", source := "" }

/-- A registry client answering every pull with a fixed result. -/
def exClient : RegistryClient := fun _ _ =>
  Except.ok { metadataData := "{}", archiveData := "zip" }

/-- A plaintext registry client that always fails, making any accidental
selection of it observable. -/
def exPlainClient : RegistryClient := fun _ _ =>
  Except.error (GoError.fail "plain client used")

/-- The metadata the OCI resolver produces from `exWire` pulled through
`exClient`. -/
def exMdOci : Metadata :=
  { Metadata.ofWire exWire with
    resolverType := ResolverType.oci, source := "{}",
    checksum := sha256Hex "{}" }

theorem lookupA_insertA {α : Type} (l : List (String × α)) (k k2 : String) (v : α) :
    lookupA (insertA l k v) k2 = if k = k2 then some v else lookupA l k2 := by
  induction l with
  | nil => simp [insertA, lookupA]
  | cons p rest ih =>
    obtain ⟨k1, v1⟩ := p
    by_cases h1 : k1 = k
    · subst h1
      simp only [insertA, if_pos rfl, lookupA]
      by_cases h2 : k1 = k2
      · subst h2; simp [lookupA]
      · simp [lookupA, h2]
    · simp only [insertA, if_neg h1, lookupA]
      by_cases h2 : k1 = k2
      · subst h2
        have : ¬ k = k1 := fun h => h1 h.symm
        simp [lookupA, this]
      · simp [lookupA, h2, ih]

theorem lookupA_eq_none_iff {α : Type} (l : List (String × α)) (k : String) :
    lookupA l k = none ↔ k ∉ keysA l := by
  induction l with
  | nil => simp [lookupA, keysA]
  | cons p rest ih =>
    obtain ⟨k1, v1⟩ := p
    show (if k1 = k then some v1 else lookupA rest k) = none ↔
      k ∉ keysA ((k1, v1) :: rest)
    by_cases h1 : k1 = k
    · subst h1
      simp [keysA]
    · rw [if_neg h1, ih]
      have : k ∈ keysA ((k1, v1) :: rest) ↔ k ∈ keysA rest := by
        show k ∈ k1 :: keysA rest ↔ _
        rw [List.mem_cons]
        exact or_iff_right (fun h => h1 h.symm)
      rw [not_iff_not.mpr this]

theorem lookupA_isSome_iff {α : Type} (l : List (String × α)) (k : String) :
    (lookupA l k).isSome ↔ k ∈ keysA l := by
  rcases h : lookupA l k with _ | v
  · simpa [h] using (lookupA_eq_none_iff l k).mp h
  · simp only [Option.isSome_some, true_iff]
    by_contra hk
    rw [← lookupA_eq_none_iff] at hk
    rw [h] at hk
    exact Option.noConfusion hk

theorem lookupA_mem {α : Type} (l : List (String × α)) (k : String) (v : α)
    (h : lookupA l k = some v) : (k, v) ∈ l := by
  induction l with
  | nil => simp [lookupA] at h
  | cons p rest ih =>
    obtain ⟨k1, v1⟩ := p
    replace h : (if k1 = k then some v1 else lookupA rest k) = some v := h
    by_cases h1 : k1 = k
    · subst h1
      rw [if_pos rfl] at h
      obtain rfl : v1 = v := Option.some_inj.mp h
      exact List.mem_cons_self _ _
    · rw [if_neg h1] at h
      exact List.mem_cons_of_mem _ (ih h)

theorem keysA_insertA_of_mem {α : Type} (l : List (String × α)) (k : String) (v : α)
    (h : k ∈ keysA l) : keysA (insertA l k v) = keysA l := by
  induction l with
  | nil => simp [keysA] at h
  | cons p rest ih =>
    obtain ⟨k1, v1⟩ := p
    show keysA (if k1 = k then (k, v) :: rest else (k1, v1) :: insertA rest k v) =
      keysA ((k1, v1) :: rest)
    by_cases h1 : k1 = k
    · subst h1
      rw [if_pos rfl]
      rfl
    · rw [if_neg h1]
      have hk : k ∈ keysA rest := by
        have hm : k ∈ k1 :: keysA rest := h
        rcases List.mem_cons.mp hm with h2 | h2
        · exact absurd h2.symm h1
        · exact h2
      show k1 :: keysA (insertA rest k v) = k1 :: keysA rest
      rw [ih hk]

theorem insertA_of_not_mem {α : Type} (l : List (String × α)) (k : String) (v : α)
    (h : k ∉ keysA l) : insertA l k v = l ++ [(k, v)] := by
  induction l with
  | nil => simp [insertA]
  | cons p rest ih =>
    obtain ⟨k1, v1⟩ := p
    have h1 : k1 ≠ k := by
      intro h1
      apply h
      show k ∈ k1 :: keysA rest
      rw [h1]
      exact List.mem_cons_self _ _
    have hk : k ∉ keysA rest := by
      intro hm
      apply h
      show k ∈ k1 :: keysA rest
      exact List.mem_cons_of_mem _ hm
    show (if k1 = k then (k, v) :: rest else (k1, v1) :: insertA rest k v) = _
    rw [if_neg h1, ih hk]
    rfl

theorem keysA_insertA_of_not_mem {α : Type} (l : List (String × α)) (k : String) (v : α)
    (h : k ∉ keysA l) : keysA (insertA l k v) = keysA l ++ [k] := by
  rw [insertA_of_not_mem l k v h]
  simp [keysA]

theorem mem_keysA_insertA {α : Type} (l : List (String × α)) (k j : String) (v : α)
    (h : j ∈ keysA l) : j ∈ keysA (insertA l k v) := by
  by_cases hk : k ∈ keysA l
  · rw [keysA_insertA_of_mem l k v hk]; exact h
  · rw [keysA_insertA_of_not_mem l k v hk]; exact List.mem_append_left _ h

theorem self_mem_keysA_insertA {α : Type} (l : List (String × α)) (k : String) (v : α) :
    k ∈ keysA (insertA l k v) := by
  rw [← lookupA_isSome_iff, lookupA_insertA]
  simp

theorem NodupKeys_insertA {α : Type} (l : List (String × α)) (k : String) (v : α)
    (h : NodupKeys l) : NodupKeys (insertA l k v) := by
  by_cases hk : k ∈ keysA l
  · unfold NodupKeys
    rw [keysA_insertA_of_mem l k v hk]
    · exact h
  · unfold NodupKeys
    rw [keysA_insertA_of_not_mem l k v hk]
    simpa [List.nodup_append] using ⟨h, hk⟩

theorem mem_insertA {α : Type} (l : List (String × α)) (k : String) (v : α)
    (p : String × α) (h : p ∈ insertA l k v) : p = (k, v) ∨ p ∈ l := by
  induction l with
  | nil => simpa [insertA] using h
  | cons q rest ih =>
    obtain ⟨k1, v1⟩ := q
    by_cases h1 : k1 = k
    · subst h1
      simp only [insertA, if_pos rfl] at h
      rcases List.mem_cons.mp h with h2 | h2
      · exact Or.inl h2
      · exact Or.inr (List.mem_cons_of_mem _ h2)
    · simp only [insertA, if_neg h1] at h
      rcases List.mem_cons.mp h with h2 | h2
      · exact Or.inr (by simp [h2])
      · rcases ih h2 with h3 | h3
        · exact Or.inl h3
        · exact Or.inr (List.mem_cons_of_mem _ h3)

theorem mem_keysA_of_mem {α : Type} {l : List (String × α)} {p : String × α}
    (h : p ∈ l) : p.1 ∈ keysA l :=
  List.mem_map_of_mem Prod.fst h

theorem NodupKeys_cons {α : Type} {k1 : String} {v1 : α} {rest : List (String × α)}
    (h : NodupKeys ((k1, v1) :: rest)) : k1 ∉ keysA rest ∧ NodupKeys rest := by
  unfold NodupKeys keysA at h
  simp only [List.map_cons, List.nodup_cons] at h
  exact h

theorem mem_insertA_precise {α : Type} (l : List (String × α)) (k : String) (v : α)
    (p : String × α) (hnd : NodupKeys l) (h : p ∈ insertA l k v) :
    p = (k, v) ∨ (p ∈ l ∧ p.1 ≠ k) := by
  induction l with
  | nil =>
    simp only [insertA, List.mem_singleton] at h
    exact Or.inl h
  | cons q rest ih =>
    obtain ⟨k1, v1⟩ := q
    obtain ⟨hq, hrest⟩ := NodupKeys_cons hnd
    by_cases h1 : k1 = k
    · subst h1
      simp only [insertA, if_pos rfl] at h
      rcases List.mem_cons.mp h with h2 | h2
      · exact Or.inl h2
      · refine Or.inr ⟨List.mem_cons_of_mem _ h2, fun hk => ?_⟩
        exact hq (hk ▸ mem_keysA_of_mem h2)
    · simp only [insertA, if_neg h1] at h
      rcases List.mem_cons.mp h with h2 | h2
      · exact Or.inr ⟨by simp [h2], by simp [h2, h1]⟩
      · rcases ih hrest h2 with h3 | ⟨h3, h4⟩
        · exact Or.inl h3
        · exact Or.inr ⟨List.mem_cons_of_mem _ h3, h4⟩

theorem NodupKeys_values_eq {α : Type} (l : List (String × α)) (k : String)
    (a b : α) (h : NodupKeys l) (ha : (k, a) ∈ l) (hb : (k, b) ∈ l) : a = b := by
  induction l with
  | nil => simp at ha
  | cons p rest ih =>
    obtain ⟨k1, v1⟩ := p
    obtain ⟨hn, hrest⟩ := NodupKeys_cons h
    rcases List.mem_cons.mp ha with h1 | h1 <;> rcases List.mem_cons.mp hb with h2 | h2
    · have e1 : a = v1 := congrArg Prod.snd h1
      have e2 : b = v1 := congrArg Prod.snd h2
      rw [e1, e2]
    · exfalso
      have e1 : k = k1 := congrArg Prod.fst h1
      exact hn (e1 ▸ mem_keysA_of_mem h2)
    · exfalso
      have e2 : k = k1 := congrArg Prod.fst h2
      exact hn (e2 ▸ mem_keysA_of_mem h1)
    · exact ih hrest h1 h2

theorem unionA_nil {α : Type} (l : List (String × α)) : unionA l [] = l := rfl

theorem unionA_cons {α : Type} (l m : List (String × α)) (p : String × α) :
    unionA l (p :: m) = unionA (insertA l p.1 p.2) m := rfl

theorem NodupKeys_unionA {α : Type} (m l : List (String × α)) (h : NodupKeys l) :
    NodupKeys (unionA l m) := by
  induction m generalizing l with
  | nil => exact h
  | cons p m ih =>
    rw [unionA_cons]
    exact ih _ (NodupKeys_insertA _ _ _ h)

theorem lookupA_unionA_isSome {α : Type} (m l : List (String × α)) (k : String) :
    (lookupA (unionA l m) k).isSome =
      ((lookupA l k).isSome || (lookupA m k).isSome) := by
  induction m generalizing l with
  | nil => simp [unionA_nil, lookupA]
  | cons p m ih =>
    obtain ⟨k1, v1⟩ := p
    rw [unionA_cons, ih]
    show _ = ((lookupA l k).isSome ||
      (if k1 = k then some v1 else lookupA m k).isSome)
    rw [lookupA_insertA]
    by_cases h1 : k1 = k
    · rw [if_pos h1, if_pos h1]
      simp
    · rw [if_neg h1, if_neg h1]

theorem mem_unionA {α : Type} (m l : List (String × α)) (p : String × α)
    (h : p ∈ unionA l m) : p ∈ l ∨ p ∈ m := by
  induction m generalizing l with
  | nil => exact Or.inl h
  | cons q m ih =>
    rw [unionA_cons] at h
    rcases ih _ h with h1 | h1
    · rcases mem_insertA _ _ _ _ h1 with h2 | h2
      · right
        rw [h2]
        exact List.mem_cons_self _ _
      · exact Or.inl h2
    · exact Or.inr (List.mem_cons_of_mem _ h1)

theorem length_filter_mono {α : Type} (l : List α) (p q : α → Bool)
    (h : ∀ a ∈ l, p a = true → q a = true) :
    (l.filter p).length ≤ (l.filter q).length := by
  induction l with
  | nil => simp
  | cons a l ih =>
    have ih2 := ih (fun x hx => h x (List.mem_cons_of_mem _ hx))
    by_cases hp : p a = true
    · rw [List.filter_cons_of_pos hp,
        List.filter_cons_of_pos (h a (List.mem_cons_self _ _) hp)]
      simpa using ih2
    · rw [List.filter_cons_of_neg (by simpa using hp)]
      by_cases hq : q a = true
      · rw [List.filter_cons_of_pos hq]
        exact le_trans ih2 (by simp)
      · rw [List.filter_cons_of_neg (by simpa using hq)]
        exact ih2

theorem uncov_mono (U : List String) (c c' : Cache)
    (h : ∀ k v, lookupA c k = some v → (lookupA c' k).isSome) :
    uncov U c' ≤ uncov U c := by
  apply length_filter_mono
  intro a _ hp
  rcases hc : lookupA c a with _ | v
  · rfl
  · have := h a v hc
    rw [Option.isSome_iff_exists] at this
    obtain ⟨w, hw⟩ := this
    rw [Option.isNone_iff_eq_none] at hp
    rcases hp' : lookupA c' a with _ | w2
    · rw [hp'] at hw
      exact Option.noConfusion hw
    · rw [hp'] at hp
      exact Option.noConfusion hp

theorem uncov_insert_lt (U : List String) (cache : Cache) (u : String)
    (md : Metadata) (hU : U.Nodup) (hu : u ∈ U)
    (hnone : lookupA cache u = none) :
    uncov U (insertA cache u md) < uncov U cache := by
  induction U with
  | nil => simp at hu
  | cons a U ih =>
    obtain ⟨hna, hnd⟩ := List.nodup_cons.mp hU
    unfold uncov
    simp only [List.filter_cons]
    by_cases ha : a = u
    · subst ha
      have h1 : (lookupA (insertA cache a md) a).isNone = false := by
        rw [lookupA_insertA, if_pos rfl]
        rfl
      have h0 : (lookupA cache a).isNone = true := by
        rw [hnone]
        rfl
      rw [h1, h0, if_neg (by simp), if_pos rfl]
      have heq : U.filter (fun x => (lookupA (insertA cache a md) x).isNone) =
          U.filter (fun x => (lookupA cache x).isNone) := by
        apply List.filter_congr
        intro x hx
        rw [lookupA_insertA]
        have hne : (if a = x then some md else lookupA cache x) =
            lookupA cache x := by
          apply if_neg
          intro h
          apply hna
          rw [h]
          exact hx
        rw [hne]
      rw [heq]
      simp
    · have hu2 : u ∈ U := by
        rcases List.mem_cons.mp hu with h1 | h1
        · exact absurd h1.symm ha
        · exact h1
      have hhead : (lookupA (insertA cache u md) a).isNone =
          (lookupA cache a).isNone := by
        rw [lookupA_insertA, if_neg (fun h => ha h.symm)]
      rw [hhead]
      have ihlt := ih hnd hu2
      unfold uncov at ihlt
      by_cases hc : (lookupA cache a).isNone = true
      · rw [if_pos hc, if_pos hc]
        simpa using ihlt
      · rw [if_neg hc, if_neg hc]
        exact ihlt

theorem uncov_le_length (U : List String) (c : Cache) : uncov U c ≤ U.length :=
  List.length_filter_le _ _

theorem natCompare_refl : CmpRefl natCompare := by
  intro a
  unfold natCompare
  rw [if_neg (lt_irrefl a), if_neg (lt_irrefl a)]

theorem natCompare_eq_iff (a b : Nat) : natCompare a b = Ordering.eq ↔ a = b := by
  unfold natCompare
  split
  · constructor
    · intro h
      exact Ordering.noConfusion h
    · intro h
      omega
  · split
    · constructor
      · intro h
        exact Ordering.noConfusion h
      · intro h
        omega
    · constructor
      · intro _
        omega
      · intro _
        rfl

theorem natCompare_gt_iff (a b : Nat) : natCompare a b = Ordering.gt ↔ b < a := by
  unfold natCompare
  split
  · constructor
    · intro h
      exact Ordering.noConfusion h
    · intro h
      omega
  · split
    · simp only [true_iff]
      omega
    · constructor
      · intro h
        exact Ordering.noConfusion h
      · intro h
        omega

theorem natCompare_subst : CmpSubst natCompare := by
  intro a b c h
  rw [natCompare_eq_iff] at h
  rw [h]
  exact ⟨rfl, rfl⟩

theorem natCompare_gtTrans : CmpGtTrans natCompare := by
  intro a b c h1 h2
  rw [natCompare_gt_iff] at h1 h2 ⊢
  omega

theorem cmpRefl_comap {α β : Type} (f : β → β → Ordering) (k : α → β)
    (h : CmpRefl f) : CmpRefl (fun a b => f (k a) (k b)) :=
  fun a => h (k a)

theorem cmpSubst_comap {α β : Type} (f : β → β → Ordering) (k : α → β)
    (h : CmpSubst f) : CmpSubst (fun a b => f (k a) (k b)) :=
  fun a b c he => h (k a) (k b) (k c) he

theorem cmpGtTrans_comap {α β : Type} (f : β → β → Ordering) (k : α → β)
    (h : CmpGtTrans f) : CmpGtTrans (fun a b => f (k a) (k b)) :=
  fun a b c h1 h2 => h (k a) (k b) (k c) h1 h2

theorem ordThen_eq_iff (x y : Ordering) :
    ordThen x y = Ordering.eq ↔ x = Ordering.eq ∧ y = Ordering.eq := by
  cases x <;> simp [ordThen]

theorem ordThen_gt_iff (x y : Ordering) :
    ordThen x y = Ordering.gt ↔
      x = Ordering.gt ∨ (x = Ordering.eq ∧ y = Ordering.gt) := by
  cases x <;> simp [ordThen]

theorem cmpRefl_ordThen {α : Type} (f g : α → α → Ordering)
    (hf : CmpRefl f) (hg : CmpRefl g) :
    CmpRefl (fun a b => ordThen (f a b) (g a b)) := by
  intro a
  show ordThen (f a a) (g a a) = Ordering.eq
  rw [hf a, hg a]
  rfl

theorem cmpSubst_ordThen {α : Type} (f g : α → α → Ordering)
    (hf : CmpSubst f) (hg : CmpSubst g) :
    CmpSubst (fun a b => ordThen (f a b) (g a b)) := by
  intro a b c h
  replace h : ordThen (f a b) (g a b) = Ordering.eq := h
  rw [ordThen_eq_iff] at h
  obtain ⟨hfe, hge⟩ := h
  obtain ⟨hf1, hf2⟩ := hf a b c hfe
  obtain ⟨hg1, hg2⟩ := hg a b c hge
  constructor
  · show ordThen (f a c) (g a c) = ordThen (f b c) (g b c)
    rw [hf1, hg1]
  · show ordThen (f c a) (g c a) = ordThen (f c b) (g c b)
    rw [hf2, hg2]

theorem cmpGtTrans_ordThen {α : Type} (f g : α → α → Ordering)
    (hfs : CmpSubst f) (hft : CmpGtTrans f) (hgt : CmpGtTrans g) :
    CmpGtTrans (fun a b => ordThen (f a b) (g a b)) := by
  intro a b c h1 h2
  replace h1 : ordThen (f a b) (g a b) = Ordering.gt := h1
  replace h2 : ordThen (f b c) (g b c) = Ordering.gt := h2
  show ordThen (f a c) (g a c) = Ordering.gt
  rw [ordThen_gt_iff] at h1 h2 ⊢
  rcases h1 with h1 | ⟨h1e, h1g⟩ <;> rcases h2 with h2 | ⟨h2e, h2g⟩
  · exact Or.inl (hft a b c h1 h2)
  · obtain ⟨_, hswap⟩ := hfs b c a h2e
    exact Or.inl (hswap ▸ h1)
  · obtain ⟨hout, _⟩ := hfs a b c h1e
    exact Or.inl (hout ▸ h2)
  · obtain ⟨hout, _⟩ := hfs a b c h1e
    exact Or.inr ⟨hout ▸ h2e, hgt a b c h1g h2g⟩

theorem listCompareWith_refl {α : Type} (f : α → α → Ordering) (hf : CmpRefl f) :
    ∀ l, listCompareWith f l l = Ordering.eq := by
  intro l
  induction l with
  | nil => rfl
  | cons a l ih =>
    show (match f a a with
      | Ordering.eq => listCompareWith f l l
      | o => o) = Ordering.eq
    rw [hf a]
    exact ih

theorem listCompareWith_cons {α : Type} (f : α → α → Ordering) (a b : α)
    (as bs : List α) :
    listCompareWith f (a :: as) (b :: bs) =
      ordThen (f a b) (listCompareWith f as bs) := by
  show (match f a b with
    | Ordering.eq => listCompareWith f as bs
    | o => o) = _
  cases f a b <;> rfl

theorem listCompareWith_subst {α : Type} (f : α → α → Ordering)
    (hf : CmpSubst f) : CmpSubst (listCompareWith f) := by
  intro la
  induction la with
  | nil =>
    intro lb lc h
    cases lb with
    | nil => exact ⟨rfl, rfl⟩
    | cons b bs => exact absurd h (by simp [listCompareWith])
  | cons a as ih =>
    intro lb lc h
    cases lb with
    | nil => exact absurd h (by simp [listCompareWith])
    | cons b bs =>
      rw [listCompareWith_cons, ordThen_eq_iff] at h
      obtain ⟨hab, htail⟩ := h
      cases lc with
      | nil => exact ⟨rfl, rfl⟩
      | cons c cs =>
        obtain ⟨hf1, hf2⟩ := hf a b c hab
        obtain ⟨ih1, ih2⟩ := ih bs cs htail
        constructor
        · rw [listCompareWith_cons, listCompareWith_cons, hf1, ih1]
        · rw [listCompareWith_cons, listCompareWith_cons, hf2, ih2]

theorem listCompareWith_gtTrans {α : Type} (f : α → α → Ordering)
    (hfs : CmpSubst f) (hft : CmpGtTrans f) : CmpGtTrans (listCompareWith f) := by
  intro la
  induction la with
  | nil =>
    intro lb lc h1 _
    cases lb with
    | nil => exact absurd h1 (by simp [listCompareWith])
    | cons b bs => exact absurd h1 (by simp [listCompareWith])
  | cons a as ih =>
    intro lb lc h1 h2
    cases lb with
    | nil =>
      cases lc with
      | nil => exact absurd h2 (by simp [listCompareWith])
      | cons c cs => exact absurd h2 (by simp [listCompareWith])
    | cons b bs =>
      cases lc with
      | nil => rfl
      | cons c cs =>
        rw [listCompareWith_cons, ordThen_gt_iff] at h1 h2
        rw [listCompareWith_cons, ordThen_gt_iff]
        rcases h1 with h1 | ⟨h1e, h1g⟩ <;> rcases h2 with h2 | ⟨h2e, h2g⟩
        · exact Or.inl (hft a b c h1 h2)
        · obtain ⟨_, hswap⟩ := hfs b c a h2e
          exact Or.inl (hswap.symm.trans h1)
        · obtain ⟨hout, _⟩ := hfs a b c h1e
          exact Or.inl (hout.trans h2)
        · obtain ⟨hout, _⟩ := hfs a b c h1e
          exact Or.inr ⟨hout.trans h2e, ih bs cs h1g h2g⟩

theorem charCompare_refl : CmpRefl charCompare :=
  cmpRefl_comap natCompare Char.toNat natCompare_refl

theorem charCompare_subst : CmpSubst charCompare :=
  cmpSubst_comap natCompare Char.toNat natCompare_subst

theorem charCompare_gtTrans : CmpGtTrans charCompare :=
  cmpGtTrans_comap natCompare Char.toNat natCompare_gtTrans

theorem identCompare_refl : CmpRefl identCompare := by
  intro a
  unfold identCompare
  rcases h : decToNat a.toList with _ | m
  · exact listCompareWith_refl charCompare charCompare_refl _
  · exact natCompare_refl m

theorem identCompare_subst : CmpSubst identCompare := by
  intro a b c h
  unfold identCompare at h ⊢
  rcases ha : decToNat a.toList with _ | m <;>
    rcases hb : decToNat b.toList with _ | n <;> rw [ha, hb] at h
  · replace h : listCompareWith charCompare a.toList b.toList =
      Ordering.eq := h
    obtain ⟨s1, s2⟩ :=
      listCompareWith_subst charCompare charCompare_subst a.toList b.toList
        c.toList h
    rcases hc : decToNat c.toList with _ | k
    · exact ⟨s1, s2⟩
    · exact ⟨rfl, rfl⟩
  · exact Ordering.noConfusion h
  · exact Ordering.noConfusion h
  · replace h : natCompare m n = Ordering.eq := h
    obtain rfl : m = n := (natCompare_eq_iff m n).mp h
    rcases hc : decToNat c.toList with _ | k
    · exact ⟨rfl, rfl⟩
    · exact ⟨rfl, rfl⟩

theorem identCompare_gtTrans : CmpGtTrans identCompare := by
  intro a b c h1 h2
  unfold identCompare at h1 h2 ⊢
  rcases ha : decToNat a.toList with _ | m <;>
    rcases hb : decToNat b.toList with _ | n <;>
    rcases hc : decToNat c.toList with _ | k <;>
    rw [ha, hb] at h1 <;> rw [hb, hc] at h2
  all_goals first
    | exact listCompareWith_gtTrans charCompare charCompare_subst
        charCompare_gtTrans a.toList b.toList c.toList h1 h2
    | rfl
    | exact Ordering.noConfusion h1
    | exact Ordering.noConfusion h2
    | exact natCompare_gtTrans m n k h1 h2

theorem preCompare_refl : CmpRefl preCompare := by
  intro a
  cases a with
  | nil => rfl
  | cons x xs =>
    show listCompareWith identCompare (x :: xs) (x :: xs) = Ordering.eq
    exact listCompareWith_refl identCompare identCompare_refl _

theorem preCompare_subst : CmpSubst preCompare := by
  intro a b c h
  cases a with
  | nil =>
    cases b with
    | nil => exact ⟨rfl, rfl⟩
    | cons y ys => exact absurd h (by simp [preCompare])
  | cons x xs =>
    cases b with
    | nil => exact absurd h (by simp [preCompare])
    | cons y ys =>
      replace h : listCompareWith identCompare (x :: xs) (y :: ys) =
        Ordering.eq := h
      obtain ⟨s1, s2⟩ :=
        listCompareWith_subst identCompare identCompare_subst (x :: xs)
          (y :: ys) c h
      cases c with
      | nil => exact ⟨rfl, rfl⟩
      | cons z zs => exact ⟨s1, s2⟩

theorem preCompare_gtTrans : CmpGtTrans preCompare := by
  intro a b c h1 h2
  cases a with
  | nil =>
    cases b with
    | nil => exact absurd h1 (by simp [preCompare])
    | cons y ys =>
      cases c with
      | nil => exact absurd h2 (by simp [preCompare])
      | cons z zs => rfl
  | cons x xs =>
    cases b with
    | nil => exact absurd h1 (by simp [preCompare])
    | cons y ys =>
      cases c with
      | nil => exact absurd h2 (by simp [preCompare])
      | cons z zs =>
        exact listCompareWith_gtTrans identCompare identCompare_subst
          identCompare_gtTrans (x :: xs) (y :: ys) (z :: zs) h1 h2

theorem semverCompare_refl : CmpRefl semverCompare :=
  cmpRefl_ordThen _ _
    (cmpRefl_comap natCompare (fun v => v.major) natCompare_refl)
    (cmpRefl_ordThen _ _
      (cmpRefl_comap natCompare (fun v => v.minor) natCompare_refl)
      (cmpRefl_ordThen _ _
        (cmpRefl_comap natCompare (fun v => v.patch) natCompare_refl)
        (cmpRefl_comap preCompare (fun v => v.pre) preCompare_refl)))

theorem semverCompare_subst : CmpSubst semverCompare :=
  cmpSubst_ordThen _ _
    (cmpSubst_comap natCompare (fun v => v.major) natCompare_subst)
    (cmpSubst_ordThen _ _
      (cmpSubst_comap natCompare (fun v => v.minor) natCompare_subst)
      (cmpSubst_ordThen _ _
        (cmpSubst_comap natCompare (fun v => v.patch) natCompare_subst)
        (cmpSubst_comap preCompare (fun v => v.pre) preCompare_subst)))

theorem semverCompare_gtTrans : CmpGtTrans semverCompare :=
  cmpGtTrans_ordThen _ _
    (cmpSubst_comap natCompare (fun v => v.major) natCompare_subst)
    (cmpGtTrans_comap natCompare (fun v => v.major) natCompare_gtTrans)
    (cmpGtTrans_ordThen _ _
      (cmpSubst_comap natCompare (fun v => v.minor) natCompare_subst)
      (cmpGtTrans_comap natCompare (fun v => v.minor) natCompare_gtTrans)
      (cmpGtTrans_ordThen _ _
        (cmpSubst_comap natCompare (fun v => v.patch) natCompare_subst)
        (cmpGtTrans_comap natCompare (fun v => v.patch) natCompare_gtTrans)
        (cmpGtTrans_comap preCompare (fun v => v.pre) preCompare_gtTrans)))

theorem semverGT_iff (a b : SemVer) :
    semverGreaterThan a b = true ↔ semverCompare a b = Ordering.gt := by
  unfold semverGreaterThan
  cases h : semverCompare a b <;> decide

theorem semverGT_irrefl (a : SemVer) : semverGreaterThan a a = false := by
  rcases h : semverGreaterThan a a with _ | _
  · rfl
  · exfalso
    have := (semverGT_iff a a).mp h
    rw [semverCompare_refl a] at this
    exact Ordering.noConfusion this

theorem semverGT_trans (a b c : SemVer) (h1 : semverGreaterThan a b = true)
    (h2 : semverGreaterThan b c = true) : semverGreaterThan a c = true := by
  rw [semverGT_iff] at h1 h2 ⊢
  exact semverCompare_gtTrans a b c h1 h2

theorem gtVer_irrefl (a : Metadata) : ¬ gtVer a a := by
  rintro ⟨va, vb, hva, hvb, hgt⟩
  rw [hva] at hvb
  obtain rfl : va = vb := Option.some_inj.mp hvb
  rw [semverGT_irrefl va] at hgt
  exact Bool.noConfusion hgt

theorem gtVer_trans (a b c : Metadata) (h1 : gtVer a b) (h2 : gtVer b c) :
    gtVer a c := by
  obtain ⟨va, vb, hva, hvb, hab⟩ := h1
  obtain ⟨vb2, vc, hvb2, hvc, hbc⟩ := h2
  rw [hvb] at hvb2
  obtain rfl : vb = vb2 := Option.some_inj.mp hvb2
  exact ⟨va, vc, hva, hvc, semverGT_trans va vb vc hab hbc⟩

theorem MVP_ok_parses (md : Metadata) (k : String)
    (h : MajorVersionPackage md = Except.ok k) :
    (urlParse md.packageUri).isSome ∧ (semverParse md.version).isSome := by
  unfold MajorVersionPackage at h
  rcases hu : urlParse md.packageUri with _ | u <;> rw [hu] at h
  · exact Except.noConfusion h
  · rcases hv : semverParse md.version with _ | v
    · unfold semverMustParse at h
      rw [hv] at h
      exact Except.noConfusion h
    · exact ⟨rfl, rfl⟩

theorem MVP_error_of_bad (md : Metadata)
    (h : urlParse md.packageUri = none ∨ semverParse md.version = none) :
    ∃ e, MajorVersionPackage md = Except.error e := by
  unfold MajorVersionPackage
  rcases hu : urlParse md.packageUri with _ | u
  · exact ⟨_, rfl⟩
  · rcases h with h | h
    · rw [hu] at h
      exact Option.noConfusion h
    · unfold semverMustParse
      rw [h]
      exact ⟨_, rfl⟩

theorem DedupInv_nil : DedupInv [] [] := by
  refine ⟨List.nodup_nil, ?_, ?_⟩
  · intro p hp
    simp at hp
  · intro q hq
    simp at hq

theorem DedupInv_insert_fresh (src versioned : List (String × Metadata))
    (a : String) (dep : Metadata) (kd : String)
    (hinv : DedupInv src versioned)
    (hmvp : MajorVersionPackage dep = Except.ok kd)
    (hlk : lookupA versioned kd = none) :
    DedupInv (src ++ [(a, dep)]) (insertA versioned kd dep) := by
  obtain ⟨hnd, hent, hclo⟩ := hinv
  refine ⟨NodupKeys_insertA _ _ _ hnd, ?_, ?_⟩
  · intro p hp
    rcases mem_insertA_precise _ _ _ _ hnd hp with hp1 | ⟨hp1, hp2⟩
    · subst hp1
      refine ⟨hmvp, ⟨(a, dep), by simp, rfl⟩, ?_⟩
      intro q hq hq2
      rcases List.mem_append.mp hq with hq3 | hq3
      · exfalso
        have := hclo q hq3 kd hq2
        rw [← lookupA_isSome_iff] at this
        rw [hlk] at this
        exact Bool.noConfusion this
      · obtain rfl : q = (a, dep) := List.mem_singleton.mp hq3
        exact gtVer_irrefl dep
    · obtain ⟨hmv, hsrc, hmax⟩ := hent p hp1
      refine ⟨hmv, ?_, ?_⟩
      · obtain ⟨q, hq, hq2⟩ := hsrc
        exact ⟨q, List.mem_append_left _ hq, hq2⟩
      · intro q hq hq2
        rcases List.mem_append.mp hq with hq3 | hq3
        · exact hmax q hq3 hq2
        · obtain rfl : q = (a, dep) := List.mem_singleton.mp hq3
          exfalso
          have : p.1 = kd := Except.ok.inj (hq2.symm.trans hmvp)
          exact hp2 this
  · intro q hq k hk
    rcases List.mem_append.mp hq with hq1 | hq1
    · exact mem_keysA_insertA _ _ _ _ (hclo q hq1 k hk)
    · obtain rfl : q = (a, dep) := List.mem_singleton.mp hq1
      obtain rfl : k = kd := Except.ok.inj (hk.symm.trans hmvp)
      exact self_mem_keysA_insertA _ _ _

theorem DedupInv_insert_replace (src versioned : List (String × Metadata))
    (a : String) (dep ex : Metadata) (kd : String) (vd vex : SemVer)
    (hinv : DedupInv src versioned)
    (hmvp : MajorVersionPackage dep = Except.ok kd)
    (hlk : lookupA versioned kd = some ex)
    (hvd : semverParse dep.version = some vd)
    (hvex : semverParse ex.version = some vex)
    (hgt : semverGreaterThan vd vex = true) :
    DedupInv (src ++ [(a, dep)]) (insertA versioned kd dep) := by
  obtain ⟨hnd, hent, hclo⟩ := hinv
  have hexmem : (kd, ex) ∈ versioned := lookupA_mem _ _ _ hlk
  obtain ⟨hexmv, _, hexmax⟩ := hent (kd, ex) hexmem
  have hdepex : gtVer dep ex := ⟨vd, vex, hvd, hvex, hgt⟩
  refine ⟨NodupKeys_insertA _ _ _ hnd, ?_, ?_⟩
  · intro p hp
    rcases mem_insertA_precise _ _ _ _ hnd hp with hp1 | ⟨hp1, hp2⟩
    · subst hp1
      refine ⟨hmvp, ⟨(a, dep), by simp, rfl⟩, ?_⟩
      intro q hq hq2
      rcases List.mem_append.mp hq with hq3 | hq3
      · intro hqd
        exact hexmax q hq3 hq2 (gtVer_trans _ _ _ hqd hdepex)
      · obtain rfl : q = (a, dep) := List.mem_singleton.mp hq3
        exact gtVer_irrefl dep
    · obtain ⟨hmv, hsrc, hmax⟩ := hent p hp1
      refine ⟨hmv, ?_, ?_⟩
      · obtain ⟨q, hq, hq2⟩ := hsrc
        exact ⟨q, List.mem_append_left _ hq, hq2⟩
      · intro q hq hq2
        rcases List.mem_append.mp hq with hq3 | hq3
        · exact hmax q hq3 hq2
        · obtain rfl : q = (a, dep) := List.mem_singleton.mp hq3
          exfalso
          exact hp2 (Except.ok.inj (hq2.symm.trans hmvp))
  · intro q hq k hk
    rcases List.mem_append.mp hq with hq1 | hq1
    · exact mem_keysA_insertA _ _ _ _ (hclo q hq1 k hk)
    · obtain rfl : q = (a, dep) := List.mem_singleton.mp hq1
      obtain rfl : k = kd := Except.ok.inj (hk.symm.trans hmvp)
      exact self_mem_keysA_insertA _ _ _

theorem DedupInv_keep (src versioned : List (String × Metadata))
    (a : String) (dep ex : Metadata) (kd : String) (vd vex : SemVer)
    (hinv : DedupInv src versioned)
    (hmvp : MajorVersionPackage dep = Except.ok kd)
    (hlk : lookupA versioned kd = some ex)
    (hvd : semverParse dep.version = some vd)
    (hvex : semverParse ex.version = some vex)
    (hngt : ¬ semverGreaterThan vd vex = true) :
    DedupInv (src ++ [(a, dep)]) versioned := by
  obtain ⟨hnd, hent, hclo⟩ := hinv
  have hexmem : (kd, ex) ∈ versioned := lookupA_mem _ _ _ hlk
  refine ⟨hnd, ?_, ?_⟩
  · intro p hp
    obtain ⟨hmv, hsrc, hmax⟩ := hent p hp
    refine ⟨hmv, ?_, ?_⟩
    · obtain ⟨q, hq, hq2⟩ := hsrc
      exact ⟨q, List.mem_append_left _ hq, hq2⟩
    · intro q hq hq2
      rcases List.mem_append.mp hq with hq3 | hq3
      · exact hmax q hq3 hq2
      · obtain rfl : q = (a, dep) := List.mem_singleton.mp hq3
        obtain rfl : p.1 = kd := Except.ok.inj (hq2.symm.trans hmvp)
        have hp2 : p.2 = ex :=
          NodupKeys_values_eq versioned p.1 p.2 ex hnd
            (by rw [Prod.mk.eta]; exact hp) hexmem
        rw [hp2]
        rintro ⟨vd2, vex2, hvd2, hvex2, hgt2⟩
        rw [hvd] at hvd2
        obtain rfl : vd = vd2 := Option.some_inj.mp hvd2
        rw [hvex] at hvex2
        obtain rfl : vex = vex2 := Option.some_inj.mp hvex2
        exact hngt hgt2
  · intro q hq k hk
    rcases List.mem_append.mp hq with hq1 | hq1
    · exact hclo q hq1 k hk
    · obtain rfl : q = (a, dep) := List.mem_singleton.mp hq1
      obtain rfl : k = kd := Except.ok.inj (hk.symm.trans hmvp)
      rw [← lookupA_isSome_iff, hlk]
      rfl

theorem dedupGo_cons (a : String) (dep : Metadata)
    (rest versioned : List (String × Metadata)) :
    dedupGo ((a, dep) :: rest) versioned =
      match MajorVersionPackage dep with
      | Except.error e => Except.error e
      | Except.ok depVersion =>
        match lookupA versioned depVersion with
        | none => dedupGo rest (insertA versioned depVersion dep)
        | some ex =>
          match semverMustParse dep.version with
          | Except.error e => Except.error e
          | Except.ok verDep =>
            match semverMustParse ex.version with
            | Except.error e => Except.error e
            | Except.ok verEx =>
              if semverGreaterThan verDep verEx then
                dedupGo rest (insertA versioned depVersion dep)
              else dedupGo rest versioned := rfl

theorem dedupGo_inv (l : List (String × Metadata)) :
    ∀ src versioned out,
    dedupGo l versioned = Except.ok out →
    DedupInv src versioned →
    DedupInv (src ++ l) out := by
  induction l with
  | nil =>
    intro src versioned out h hinv
    obtain rfl : versioned = out := Except.ok.inj h
    simpa using hinv
  | cons p rest ih =>
    intro src versioned out h hinv
    obtain ⟨a, dep⟩ := p
    rw [show src ++ (a, dep) :: rest = (src ++ [(a, dep)]) ++ rest by simp]
    rw [dedupGo_cons] at h
    rcases hmvp : MajorVersionPackage dep with e | kd <;> simp only [hmvp] at h
    · exact Except.noConfusion h
    · rcases hlk : lookupA versioned kd with _ | ex <;> simp only [hlk] at h
      · exact ih _ _ out h (DedupInv_insert_fresh src versioned a dep kd hinv hmvp hlk)
      · obtain ⟨vd, hvd⟩ :=
          Option.isSome_iff_exists.mp (MVP_ok_parses dep kd hmvp).2
        have hexmv : MajorVersionPackage ex = Except.ok kd :=
          (hinv.2.1 (kd, ex) (lookupA_mem _ _ _ hlk)).1
        obtain ⟨vex, hvex⟩ :=
          Option.isSome_iff_exists.mp (MVP_ok_parses ex kd hexmv).2
        unfold semverMustParse at h
        simp only [hvd, hvex] at h
        by_cases hgt : semverGreaterThan vd vex = true
        · rw [if_pos hgt] at h
          exact ih _ _ out h
            (DedupInv_insert_replace src versioned a dep ex kd vd vex hinv
              hmvp hlk hvd hvex hgt)
        · rw [if_neg hgt] at h
          exact ih _ _ out h
            (DedupInv_keep src versioned a dep ex kd vd vex hinv hmvp hlk
              hvd hvex hgt)

theorem mem_rekey_fold (l : List (String × Metadata)) :
    ∀ acc p, p ∈ List.foldl (fun acc q => insertA acc q.2.packageUri q.2) acc l →
      p ∈ acc ∨ (p.1 = p.2.packageUri ∧ ∃ q ∈ l, q.2 = p.2) := by
  induction l with
  | nil =>
    intro acc p h
    exact Or.inl h
  | cons q l ih =>
    intro acc p h
    rcases ih _ p h with h1 | ⟨h1, q2, hq2, hq3⟩
    · rcases mem_insertA _ _ _ _ h1 with h2 | h2
      · subst h2
        exact Or.inr ⟨rfl, q, List.mem_cons_self _ _, rfl⟩
      · exact Or.inl h2
    · exact Or.inr ⟨h1, q2, List.mem_cons_of_mem _ hq2, hq3⟩

theorem mem_rekey (versioned : List (String × Metadata)) (p : String × Metadata)
    (h : p ∈ rekey versioned) :
    p.1 = p.2.packageUri ∧ ∃ q ∈ versioned, q.2 = p.2 := by
  rcases mem_rekey_fold versioned [] p h with h1 | h1
  · simp at h1
  · exact h1

theorem NodupKeys_rekey_fold (l : List (String × Metadata)) :
    ∀ acc, NodupKeys acc →
      NodupKeys (List.foldl (fun acc q => insertA acc q.2.packageUri q.2) acc l) := by
  induction l with
  | nil =>
    intro acc h
    exact h
  | cons q l ih =>
    intro acc h
    exact ih _ (NodupKeys_insertA _ _ _ h)

theorem NodupKeys_rekey (versioned : List (String × Metadata)) :
    NodupKeys (rekey versioned) :=
  NodupKeys_rekey_fold versioned [] List.nodup_nil

theorem Deduplicate_ok_inv (input out : List (String × Metadata))
    (h : Deduplicate input = Except.ok out) :
    ∃ versioned, dedupGo input [] = Except.ok versioned ∧
      out = rekey versioned ∧ DedupInv input versioned := by
  unfold Deduplicate at h
  rcases hd : dedupGo input [] with e | versioned <;> rw [hd] at h
  · exact Except.noConfusion h
  · have hinv := dedupGo_inv input [] [] versioned hd DedupInv_nil
    rw [List.nil_append] at hinv
    exact ⟨versioned, rfl, (Except.ok.inj h).symm, hinv⟩

theorem dedupGo_ok_all_parse (l : List (String × Metadata)) :
    ∀ versioned out, dedupGo l versioned = Except.ok out →
      ∀ q ∈ l, (urlParse q.2.packageUri).isSome ∧
        (semverParse q.2.version).isSome := by
  induction l with
  | nil =>
    intro versioned out _ q hq
    simp at hq
  | cons p rest ih =>
    intro versioned out h q hq
    obtain ⟨a, dep⟩ := p
    rw [dedupGo_cons] at h
    rcases hmvp : MajorVersionPackage dep with e | kd <;> simp only [hmvp] at h
    · exact Except.noConfusion h
    · rcases List.mem_cons.mp hq with hq1 | hq1
      · subst hq1
        exact MVP_ok_parses dep kd hmvp
      · rcases hlk : lookupA versioned kd with _ | ex <;> simp only [hlk] at h
        · exact ih _ _ h q hq1
        · obtain ⟨vd, hvd⟩ :=
            Option.isSome_iff_exists.mp (MVP_ok_parses dep kd hmvp).2
          unfold semverMustParse at h
          rcases hvex : semverParse ex.version with _ | vex2 <;>
            simp only [hvd, hvex] at h
          · exact Except.noConfusion h
          · by_cases hgt : semverGreaterThan vd vex2 = true
            · rw [if_pos hgt] at h
              exact ih _ _ h q hq1
            · rw [if_neg hgt] at h
              exact ih _ _ h q hq1

theorem groupKeyD_eq (md : Metadata) (k : String)
    (h : MajorVersionPackage md = Except.ok k) : groupKeyD md = k := by
  unfold groupKeyD
  simp only [h]

theorem keysA_append {α : Type} (l m : List (String × α)) :
    keysA (l ++ m) = keysA l ++ keysA m := List.map_append _ _ _

theorem dedupGo_distinct (l : List (String × Metadata)) :
    ∀ acc,
    (∀ p ∈ l, MajorVersionPackage p.2 = Except.ok (groupKeyD p.2)) →
    (l.map (fun p => groupKeyD p.2)).Nodup →
    (∀ p ∈ l, groupKeyD p.2 ∉ keysA acc) →
    dedupGo l acc = Except.ok (acc ++ l.map (fun p => (groupKeyD p.2, p.2))) := by
  induction l with
  | nil =>
    intro acc _ _ _
    show Except.ok acc = _
    simp
  | cons p rest ih =>
    intro acc hmvp hnd hfresh
    obtain ⟨a, dep⟩ := p
    rw [dedupGo_cons]
    have h1 : MajorVersionPackage dep = Except.ok (groupKeyD dep) :=
      hmvp (a, dep) (List.mem_cons_self _ _)
    simp only [h1]
    have h2 : lookupA acc (groupKeyD dep) = none :=
      (lookupA_eq_none_iff _ _).mpr (hfresh (a, dep) (List.mem_cons_self _ _))
    simp only [h2]
    rw [insertA_of_not_mem _ _ _ (hfresh (a, dep) (List.mem_cons_self _ _))]
    have hnd2 := hnd
    rw [List.map_cons, List.nodup_cons] at hnd2
    obtain ⟨hhead, htail⟩ := hnd2
    have hrec := ih (acc ++ [(groupKeyD dep, dep)])
      (fun q hq => hmvp q (List.mem_cons_of_mem _ hq)) htail ?_
    · rw [hrec]
      simp
    · intro q hq
      rw [keysA_append]
      intro hmem
      rcases List.mem_append.mp hmem with hm | hm
      · exact hfresh q (List.mem_cons_of_mem _ hq) hm
      · replace hm : groupKeyD q.2 ∈ [groupKeyD dep] := hm
        apply hhead
        rw [← List.mem_singleton.mp hm]
        exact List.mem_map_of_mem _ hq

theorem rekey_values (out : List (String × Metadata)) :
    ∀ acc,
    (∀ p ∈ out, p.1 = p.2.packageUri ∧ p.2.packageUri ∉ keysA acc) →
    NodupKeys out →
    List.foldl (fun acc2 q => insertA acc2 q.2.packageUri q.2) acc
      (out.map (fun p => (groupKeyD p.2, p.2))) = acc ++ out := by
  induction out with
  | nil =>
    intro acc _ _
    simp
  | cons p rest ih =>
    intro acc hk hnd
    obtain ⟨p1, p2⟩ := p
    obtain ⟨hp1, hp2⟩ := hk (p1, p2) (List.mem_cons_self _ _)
    obtain ⟨hpk, hrnd⟩ := NodupKeys_cons hnd
    simp only [List.map_cons, List.foldl_cons]
    rw [insertA_of_not_mem _ _ _ hp2]
    replace hp1 : p1 = p2.packageUri := hp1
    have hrec := ih (acc ++ [(p2.packageUri, p2)]) ?_ hrnd
    · rw [hrec, ← hp1]
      simp
    · intro q hq
      refine ⟨(hk q (List.mem_cons_of_mem _ hq)).1, ?_⟩
      rw [keysA_append]
      intro hmem
      rcases List.mem_append.mp hmem with hm | hm
      · exact (hk q (List.mem_cons_of_mem _ hq)).2 hm
      · replace hm : q.2.packageUri ∈ [p2.packageUri] := hm
        apply hpk
        have hq1 : q.1 = q.2.packageUri := (hk q (List.mem_cons_of_mem _ hq)).1
        have : q.1 = p1 := by
          rw [hq1, List.mem_singleton.mp hm, hp1]
        rw [← this]
        exact mem_keysA_of_mem hq

theorem Deduplicate_out_shape (input out : List (String × Metadata))
    (h : Deduplicate input = Except.ok out) :
    (∀ p ∈ out, MajorVersionPackage p.2 = Except.ok (groupKeyD p.2)) ∧
    (out.map (fun p => groupKeyD p.2)).Nodup ∧
    (∀ p ∈ out, p.1 = p.2.packageUri) ∧ NodupKeys out := by
  obtain ⟨versioned, _, ho, hinv⟩ := Deduplicate_ok_inv input out h
  obtain ⟨hvnd, hent, _⟩ := hinv
  subst ho
  have hval : ∀ p ∈ rekey versioned, p.1 = p.2.packageUri ∧
      MajorVersionPackage p.2 = Except.ok (groupKeyD p.2) ∧
      (groupKeyD p.2, p.2) ∈ versioned := by
    intro p hp
    obtain ⟨hk, q, hq, hq2⟩ := mem_rekey versioned p hp
    obtain ⟨hmq, _, _⟩ := hent q hq
    rw [hq2] at hmq
    have hgk : groupKeyD p.2 = q.1 := groupKeyD_eq _ _ hmq
    refine ⟨hk, by rw [hgk]; exact hmq, ?_⟩
    rw [hgk, ← hq2, Prod.mk.eta]
    exact hq
  refine ⟨fun p hp => (hval p hp).2.1, ?_, fun p hp => (hval p hp).1,
    NodupKeys_rekey versioned⟩
  apply List.Nodup.map_on
  · intro x hx y hy hxy
    obtain ⟨hkx, hmx, hvx⟩ := hval x hx
    obtain ⟨hky, hmy, hvy⟩ := hval y hy
    rw [hxy] at hvx
    have hv : x.2 = y.2 :=
      NodupKeys_values_eq versioned _ _ _ hvnd hvx hvy
    have hkk : x.1 = y.1 := by
      rw [hkx, hky, hv]
    calc x = (x.1, x.2) := (Prod.mk.eta).symm
      _ = (y.1, y.2) := by rw [hv, hkk]
      _ = y := Prod.mk.eta
  · exact List.Nodup.of_map _ (NodupKeys_rekey versioned)

theorem resolveLoop_nil (oci httpR : ResolverFn) (sub : SubFn) (cache : Cache) :
    resolveLoop oci httpR sub [] cache = (cache, Except.ok ([], [])) := rfl

theorem resolveLoop_cons (oci httpR : ResolverFn) (sub : SubFn) (a : String)
    (dependency : Dependency) (rest : List (String × Dependency)) (cache : Cache) :
    resolveLoop oci httpR sub ((a, dependency) :: rest) cache =
      match lookupA cache dependency.uri with
      | some metadata =>
        match resolveLoop oci httpR sub rest cache with
        | (c2, Except.error e) => (c2, Except.error e)
        | (c2, Except.ok (res, fs)) =>
          (c2, Except.ok (unionA [(dependency.uri, metadata)] res, fs))
      | none =>
        match (if strEndsWith dependency.name ".oci" then oci else httpR)
            dependency.uri (strContainsSub dependency.name ".plain") with
        | Except.error e => (cache, Except.error e)
        | Except.ok metadata0 =>
          if (normalizeDeps metadata0).dependencies.length > 0 then
            match sub (normalizeDeps metadata0).dependencies
                (insertA cache dependency.uri (normalizeDeps metadata0)) with
            | (c2, Except.error e) => (c2, Except.error e)
            | (c2, Except.ok (subs, fsub)) =>
              match resolveLoop oci httpR sub rest c2 with
              | (c3, Except.error e) => (c3, Except.error e)
              | (c3, Except.ok (res, fs)) =>
                (c3, Except.ok
                  (unionA (unionA [(dependency.uri, normalizeDeps metadata0)]
                    subs) res, dependency.uri :: (fsub ++ fs)))
          else
            match resolveLoop oci httpR sub rest
                (insertA cache dependency.uri (normalizeDeps metadata0)) with
            | (c2, Except.error e) => (c2, Except.error e)
            | (c2, Except.ok (res, fs)) =>
              (c2, Except.ok (unionA [(dependency.uri, normalizeDeps metadata0)]
                res, dependency.uri :: fs)) := rfl

theorem resolveLoop_cons_cached (oci httpR : ResolverFn) (sub : SubFn)
    (a : String) (dependency : Dependency) (rest : List (String × Dependency))
    (cache : Cache) (md : Metadata) (c2 : Cache)
    (r2 : ExceptG (List (String × Metadata) × List String))
    (hlk : lookupA cache dependency.uri = some md)
    (hres : resolveLoop oci httpR sub rest cache = (c2, r2)) :
    resolveLoop oci httpR sub ((a, dependency) :: rest) cache =
      (c2, r2.map (fun p => (unionA [(dependency.uri, md)] p.1, p.2))) := by
  rw [resolveLoop_cons]
  simp only [hlk, hres]
  rcases r2 with e | ⟨res, fs⟩
  · rfl
  · rfl

theorem resolveLoop_cons_fetchErr (oci httpR : ResolverFn) (sub : SubFn)
    (a : String) (dependency : Dependency) (rest : List (String × Dependency))
    (cache : Cache) (e : GoError)
    (hlk : lookupA cache dependency.uri = none)
    (hr : (if strEndsWith dependency.name ".oci" then oci else httpR)
        dependency.uri (strContainsSub dependency.name ".plain") =
      Except.error e) :
    resolveLoop oci httpR sub ((a, dependency) :: rest) cache =
      (cache, Except.error e) := by
  rw [resolveLoop_cons]
  simp only [hlk, hr]

theorem resolveLoop_cons_subErr (oci httpR : ResolverFn) (sub : SubFn)
    (a : String) (dependency : Dependency) (rest : List (String × Dependency))
    (cache : Cache) (md0 : Metadata) (c2 : Cache) (e : GoError)
    (hlk : lookupA cache dependency.uri = none)
    (hr : (if strEndsWith dependency.name ".oci" then oci else httpR)
        dependency.uri (strContainsSub dependency.name ".plain") =
      Except.ok md0)
    (hlen : (normalizeDeps md0).dependencies.length > 0)
    (hs : sub (normalizeDeps md0).dependencies
        (insertA cache dependency.uri (normalizeDeps md0)) =
      (c2, Except.error e)) :
    resolveLoop oci httpR sub ((a, dependency) :: rest) cache =
      (c2, Except.error e) := by
  rw [resolveLoop_cons]
  simp only [hlk, hr]
  rw [if_pos hlen]
  simp only [hs]

theorem resolveLoop_cons_subOk (oci httpR : ResolverFn) (sub : SubFn)
    (a : String) (dependency : Dependency) (rest : List (String × Dependency))
    (cache : Cache) (md0 : Metadata) (c2 c3 : Cache)
    (subs : List (String × Metadata)) (fsub : List String)
    (r3 : ExceptG (List (String × Metadata) × List String))
    (hlk : lookupA cache dependency.uri = none)
    (hr : (if strEndsWith dependency.name ".oci" then oci else httpR)
        dependency.uri (strContainsSub dependency.name ".plain") =
      Except.ok md0)
    (hlen : (normalizeDeps md0).dependencies.length > 0)
    (hs : sub (normalizeDeps md0).dependencies
        (insertA cache dependency.uri (normalizeDeps md0)) =
      (c2, Except.ok (subs, fsub)))
    (hres : resolveLoop oci httpR sub rest c2 = (c3, r3)) :
    resolveLoop oci httpR sub ((a, dependency) :: rest) cache =
      (c3, r3.map (fun p =>
        (unionA (unionA [(dependency.uri, normalizeDeps md0)] subs) p.1,
         dependency.uri :: (fsub ++ p.2)))) := by
  rw [resolveLoop_cons]
  simp only [hlk, hr]
  rw [if_pos hlen]
  simp only [hs, hres]
  rcases r3 with e | ⟨res, fs⟩
  · rfl
  · rfl

theorem resolveLoop_cons_leaf (oci httpR : ResolverFn) (sub : SubFn)
    (a : String) (dependency : Dependency) (rest : List (String × Dependency))
    (cache : Cache) (md0 : Metadata) (c2 : Cache)
    (r2 : ExceptG (List (String × Metadata) × List String))
    (hlk : lookupA cache dependency.uri = none)
    (hr : (if strEndsWith dependency.name ".oci" then oci else httpR)
        dependency.uri (strContainsSub dependency.name ".plain") =
      Except.ok md0)
    (hlen : ¬ (normalizeDeps md0).dependencies.length > 0)
    (hres : resolveLoop oci httpR sub rest
        (insertA cache dependency.uri (normalizeDeps md0)) = (c2, r2)) :
    resolveLoop oci httpR sub ((a, dependency) :: rest) cache =
      (c2, r2.map (fun p =>
        (unionA [(dependency.uri, normalizeDeps md0)] p.1,
         dependency.uri :: p.2))) := by
  rw [resolveLoop_cons]
  simp only [hlk, hr]
  rw [if_neg hlen]
  simp only [hres]
  rcases r2 with e | ⟨res, fs⟩
  · rfl
  · rfl

theorem cachePreserves_refl (c : Cache) : CachePreserves c c := fun _ h => h

theorem cachePreserves_trans (c1 c2 c3 : Cache) (h1 : CachePreserves c1 c2)
    (h2 : CachePreserves c2 c3) : CachePreserves c1 c3 :=
  fun k h => h2 k (h1 k h)

theorem cachePreserves_insertA (c : Cache) (k : String) (v : Metadata) :
    CachePreserves c (insertA c k v) := by
  intro j h
  rw [lookupA_insertA]
  by_cases hk : k = j
  · rw [if_pos hk]
    rfl
  · rw [if_neg hk]
    exact h

theorem pick_ok (oci httpR : ResolverFn) (c : Bool) (u : String) (pl : Bool)
    (md : Metadata)
    (h : (if c then oci else httpR) u pl = Except.ok md) :
    oci u pl = Except.ok md ∨ httpR u pl = Except.ok md := by
  cases c
  · exact Or.inr h
  · exact Or.inl h

theorem resolveLoop_cache_mono (oci httpR : ResolverFn) (sub : SubFn)
    (hsub : ∀ ds c, CachePreserves c (sub ds c).1) :
    ∀ deps cache, CachePreserves cache (resolveLoop oci httpR sub deps cache).1 := by
  intro deps
  induction deps with
  | nil =>
    intro cache
    exact cachePreserves_refl cache
  | cons p rest ih =>
    intro cache
    obtain ⟨a, dependency⟩ := p
    rcases hlk : lookupA cache dependency.uri with _ | md
    · rcases hr : (if strEndsWith dependency.name ".oci" then oci else httpR)
          dependency.uri (strContainsSub dependency.name ".plain") with e | md0
      · rw [resolveLoop_cons_fetchErr oci httpR sub a dependency rest cache e
          hlk hr]
        exact cachePreserves_refl cache
      · by_cases hlen : (normalizeDeps md0).dependencies.length > 0
        · rcases hs : sub (normalizeDeps md0).dependencies
              (insertA cache dependency.uri (normalizeDeps md0)) with ⟨c2, r2⟩
          have hpre2 : CachePreserves cache c2 := by
            have h2 := hsub (normalizeDeps md0).dependencies
              (insertA cache dependency.uri (normalizeDeps md0))
            rw [hs] at h2
            exact cachePreserves_trans _ _ _
              (cachePreserves_insertA cache dependency.uri (normalizeDeps md0))
              h2
          rcases r2 with e | ⟨subs, fsub⟩
          · rw [resolveLoop_cons_subErr oci httpR sub a dependency rest cache
              md0 c2 e hlk hr hlen hs]
            exact hpre2
          · rcases hres : resolveLoop oci httpR sub rest c2 with ⟨c3, r3⟩
            have hpre3 : CachePreserves c2 c3 := by
              have := ih c2
              rw [hres] at this
              exact this
            rw [resolveLoop_cons_subOk oci httpR sub a dependency rest cache
              md0 c2 c3 subs fsub r3 hlk hr hlen hs hres]
            exact cachePreserves_trans _ _ _ hpre2 hpre3
        · rcases hres : resolveLoop oci httpR sub rest
              (insertA cache dependency.uri (normalizeDeps md0)) with ⟨c2, r2⟩
          have hpre : CachePreserves cache c2 := by
            have h2 := ih (insertA cache dependency.uri (normalizeDeps md0))
            rw [hres] at h2
            exact cachePreserves_trans _ _ _
              (cachePreserves_insertA cache dependency.uri (normalizeDeps md0))
              h2
          rw [resolveLoop_cons_leaf oci httpR sub a dependency rest cache md0
            c2 r2 hlk hr hlen hres]
          exact hpre
    · rcases hres : resolveLoop oci httpR sub rest cache with ⟨c2, r2⟩
      have hpre : CachePreserves cache c2 := by
        have := ih cache
        rw [hres] at this
        exact this
      rw [resolveLoop_cons_cached oci httpR sub a dependency rest cache md c2
        r2 hlk hres]
      exact hpre

theorem resolveGo_cache_mono (oci httpR : ResolverFn) :
    ∀ fuel deps cache,
      CachePreserves cache (resolveGo oci httpR fuel deps cache).1 := by
  intro fuel
  induction fuel with
  | zero =>
    exact resolveLoop_cache_mono oci httpR _ (fun _ c => cachePreserves_refl c)
  | succ f ih =>
    exact resolveLoop_cache_mono oci httpR _ (fun ds c => ih ds c)

theorem uncov_mono_of_preserves (U : List String) (c c' : Cache)
    (h : CachePreserves c c') : uncov U c' ≤ uncov U c := by
  apply uncov_mono
  intro k v hv
  exact h k (by rw [hv]; rfl)

theorem pick_ne_oof (oci httpR : ResolverFn) (c : Bool) (u : String) (pl : Bool)
    (hociF : ∀ u2 b, oci u2 b ≠ Except.error GoError.outOfFuel)
    (httpF : ∀ u2 b, httpR u2 b ≠ Except.error GoError.outOfFuel)
    (h : (if c then oci else httpR) u pl = Except.error GoError.outOfFuel) :
    False := by
  cases c
  · exact httpF u pl h
  · exact hociF u pl h

theorem resolveLoop_no_oof (oci httpR : ResolverFn) (sub : SubFn)
    (U : List String) (n : Nat) (hU : U.Nodup)
    (hdom : ∀ u b md, oci u b = Except.ok md ∨ httpR u b = Except.ok md →
      u ∈ U)
    (hociF : ∀ u b, oci u b ≠ Except.error GoError.outOfFuel)
    (httpF : ∀ u b, httpR u b ≠ Except.error GoError.outOfFuel)
    (hsubM : ∀ ds c, CachePreserves c (sub ds c).1)
    (hsub : ∀ ds c, uncov U c < n →
      (sub ds c).2 ≠ Except.error GoError.outOfFuel) :
    ∀ deps cache, uncov U cache ≤ n →
      (resolveLoop oci httpR sub deps cache).2 ≠
        Except.error GoError.outOfFuel := by
  intro deps
  induction deps with
  | nil =>
    intro cache _
    rw [resolveLoop_nil]
    exact fun h => Except.noConfusion h
  | cons p rest ih =>
    intro cache hfuel
    obtain ⟨a, dependency⟩ := p
    rcases hlk : lookupA cache dependency.uri with _ | md
    · rcases hr : (if strEndsWith dependency.name ".oci" then oci else httpR)
          dependency.uri (strContainsSub dependency.name ".plain") with e | md0
      · rw [resolveLoop_cons_fetchErr oci httpR sub a dependency rest cache e
          hlk hr]
        intro hcontra
        obtain rfl : e = GoError.outOfFuel := by
          have := Except.error.inj hcontra
          exact this
        exact pick_ne_oof oci httpR _ _ _ hociF httpF hr
      · have huri : dependency.uri ∈ U :=
          hdom _ _ _ (pick_ok oci httpR _ _ _ _ hr)
        have hdec : uncov U (insertA cache dependency.uri (normalizeDeps md0)) <
            uncov U cache :=
          uncov_insert_lt U cache _ _ hU huri hlk
        by_cases hlen : (normalizeDeps md0).dependencies.length > 0
        · rcases hs : sub (normalizeDeps md0).dependencies
              (insertA cache dependency.uri (normalizeDeps md0)) with ⟨c2, r2⟩
          have hlt : uncov U (insertA cache dependency.uri (normalizeDeps md0)) <
              n := lt_of_lt_of_le hdec hfuel
          rcases r2 with e | ⟨subs, fsub⟩
          · rw [resolveLoop_cons_subErr oci httpR sub a dependency rest cache
              md0 c2 e hlk hr hlen hs]
            intro hcontra
            obtain rfl : e = GoError.outOfFuel := Except.error.inj hcontra
            have := hsub (normalizeDeps md0).dependencies _ hlt
            rw [hs] at this
            exact this rfl
          · rcases hres : resolveLoop oci httpR sub rest c2 with ⟨c3, r3⟩
            rw [resolveLoop_cons_subOk oci httpR sub a dependency rest cache
              md0 c2 c3 subs fsub r3 hlk hr hlen hs hres]
            have hc2pre : CachePreserves
                (insertA cache dependency.uri (normalizeDeps md0)) c2 := by
              have := hsubM (normalizeDeps md0).dependencies
                (insertA cache dependency.uri (normalizeDeps md0))
              rw [hs] at this
              exact this
            have hle2 : uncov U c2 ≤ n :=
              le_trans (uncov_mono_of_preserves U _ _ hc2pre)
                (le_of_lt hlt)
            have hr3 := ih c2 hle2
            rw [hres] at hr3
            rcases r3 with e | ⟨res, fs⟩
            · intro hcontra
              obtain rfl : e = GoError.outOfFuel := Except.error.inj hcontra
              exact hr3 rfl
            · exact fun h => Except.noConfusion h
        · rcases hres : resolveLoop oci httpR sub rest
              (insertA cache dependency.uri (normalizeDeps md0)) with ⟨c2, r2⟩
          rw [resolveLoop_cons_leaf oci httpR sub a dependency rest cache md0
            c2 r2 hlk hr hlen hres]
          have hle : uncov U (insertA cache dependency.uri (normalizeDeps md0)) ≤
              n := le_of_lt (lt_of_lt_of_le hdec hfuel)
          have hr2 := ih _ hle
          rw [hres] at hr2
          rcases r2 with e | ⟨res, fs⟩
          · intro hcontra
            obtain rfl : e = GoError.outOfFuel := Except.error.inj hcontra
            exact hr2 rfl
          · exact fun h => Except.noConfusion h
    · rcases hres : resolveLoop oci httpR sub rest cache with ⟨c2, r2⟩
      rw [resolveLoop_cons_cached oci httpR sub a dependency rest cache md c2
        r2 hlk hres]
      have hr2 := ih cache hfuel
      rw [hres] at hr2
      rcases r2 with e | ⟨res, fs⟩
      · intro hcontra
        obtain rfl : e = GoError.outOfFuel := Except.error.inj hcontra
        exact hr2 rfl
      · exact fun h => Except.noConfusion h

theorem resolveGo_no_oof (oci httpR : ResolverFn) (U : List String)
    (hU : U.Nodup)
    (hdom : ∀ u b md, oci u b = Except.ok md ∨ httpR u b = Except.ok md →
      u ∈ U)
    (hociF : ∀ u b, oci u b ≠ Except.error GoError.outOfFuel)
    (httpF : ∀ u b, httpR u b ≠ Except.error GoError.outOfFuel) :
    ∀ fuel deps cache, uncov U cache ≤ fuel →
      (resolveGo oci httpR fuel deps cache).2 ≠
        Except.error GoError.outOfFuel := by
  intro fuel
  induction fuel with
  | zero =>
    exact resolveLoop_no_oof oci httpR _ U 0 hU hdom hociF httpF
      (fun _ c => cachePreserves_refl c)
      (fun ds c h => absurd h (Nat.not_lt_zero _))
  | succ f ih =>
    exact resolveLoop_no_oof oci httpR _ U (f + 1) hU hdom hociF httpF
      (fun ds c => resolveGo_cache_mono oci httpR f ds c)
      (fun ds c hlt => ih ds c (Nat.lt_succ_iff.mp hlt))

theorem okPair_inj {α β : Type} (a1 : α) (b1 : β) (a2 : α) (b2 : β)
    (h : (Except.ok (a1, b1) : ExceptG (α × β)) = Except.ok (a2, b2)) :
    a1 = a2 ∧ b1 = b2 := by
  have h2 := Except.ok.inj h
  exact ⟨congrArg Prod.fst h2, congrArg Prod.snd h2⟩

theorem lookupA_none_of_preserves (c c' : Cache) (u : String)
    (h : CachePreserves c c') (hn : lookupA c' u = none) :
    lookupA c u = none := by
  rcases hc : lookupA c u with _ | v
  · rfl
  · have h2 := h u (by rw [hc]; rfl)
    rw [hn] at h2
    exact Bool.noConfusion h2

theorem lookupA_insertA_self_isSome (c : Cache) (k : String) (v : Metadata) :
    (lookupA (insertA c k v) k).isSome = true := by
  rw [lookupA_insertA, if_pos rfl]
  rfl

theorem NodupKeys_singleton (k : String) (v : Metadata) :
    NodupKeys [(k, v)] := by
  unfold NodupKeys keysA
  simp

theorem lookupA_singleton_self_isSome (k : String) (v : Metadata) :
    (lookupA [(k, v)] k).isSome = true := by
  unfold lookupA
  rw [if_pos rfl]
  rfl

theorem resolveLoop_ok_props (oci httpR : ResolverFn) (sub : SubFn)
    (hsubM : ∀ ds c, CachePreserves c (sub ds c).1)
    (hsubOk : ∀ ds c, OkProps c (sub ds c)) :
    ∀ deps cache,
      OkProps cache (resolveLoop oci httpR sub deps cache) ∧
      (∀ res fs,
        (resolveLoop oci httpR sub deps cache).2 = Except.ok (res, fs) →
        ∀ p ∈ deps, (lookupA res p.2.uri).isSome = true) := by
  intro deps
  induction deps with
  | nil =>
    intro cache
    constructor
    · intro res fs h
      rw [resolveLoop_nil] at h
      obtain ⟨h1, h2⟩ := okPair_inj _ _ _ _ h
      rw [← h1, ← h2]
      refine ⟨List.nodup_nil, List.nodup_nil, ?_⟩
      intro u hu
      simp at hu
    · intro res fs _ p hp
      simp at hp
  | cons pd rest ih =>
    intro cache
    obtain ⟨a, dependency⟩ := pd
    rcases hlk : lookupA cache dependency.uri with _ | md
    · rcases hr : (if strEndsWith dependency.name ".oci" then oci else httpR)
          dependency.uri (strContainsSub dependency.name ".plain") with e | md0
      · rw [resolveLoop_cons_fetchErr oci httpR sub a dependency rest cache e
          hlk hr]
        constructor
        · intro res fs h
          exact Except.noConfusion h
        · intro res fs h
          exact Except.noConfusion h
      · by_cases hlen : (normalizeDeps md0).dependencies.length > 0
        · rcases hs : sub (normalizeDeps md0).dependencies
              (insertA cache dependency.uri (normalizeDeps md0)) with ⟨c2, r2⟩
          rcases r2 with e | ⟨subs, fsub⟩
          · rw [resolveLoop_cons_subErr oci httpR sub a dependency rest cache
              md0 c2 e hlk hr hlen hs]
            constructor
            · intro res fs h
              exact Except.noConfusion h
            · intro res fs h
              exact Except.noConfusion h
          · rcases hres : resolveLoop oci httpR sub rest c2 with ⟨c3, r3⟩
            rw [resolveLoop_cons_subOk oci httpR sub a dependency rest cache
              md0 c2 c3 subs fsub r3 hlk hr hlen hs hres]
            rcases r3 with e | ⟨res', fs'⟩
            · constructor
              · intro res fs h
                exact Except.noConfusion h
              · intro res fs h
                exact Except.noConfusion h
            · have hsubs := hsubOk (normalizeDeps md0).dependencies
                (insertA cache dependency.uri (normalizeDeps md0))
              rw [hs] at hsubs
              obtain ⟨hsubNd, hsubFsNd, hsubF⟩ := hsubs subs fsub rfl
              have hii := ih c2
              rw [hres] at hii
              obtain ⟨hresNd, hfsNd, hfsF⟩ := hii.1 res' fs' rfl
              have hroots' := hii.2 res' fs' rfl
              have hp01 : CachePreserves cache
                  (insertA cache dependency.uri (normalizeDeps md0)) :=
                cachePreserves_insertA _ _ _
              have hp12 : CachePreserves
                  (insertA cache dependency.uri (normalizeDeps md0)) c2 := by
                have h2 := hsubM (normalizeDeps md0).dependencies
                  (insertA cache dependency.uri (normalizeDeps md0))
                rw [hs] at h2
                exact h2
              have hp23 : CachePreserves c2 c3 := by
                have h2 := resolveLoop_cache_mono oci httpR sub hsubM rest c2
                rw [hres] at h2
                exact h2
              constructor
              · intro res fs h
                obtain ⟨h1, h2⟩ := okPair_inj _ _ _ _ h
                rw [← h1, ← h2]
                refine ⟨?_, ?_, ?_⟩
                · exact NodupKeys_unionA _ _
                    (NodupKeys_unionA _ _ (NodupKeys_singleton _ _))
                · have hdisj : fsub.Disjoint fs' := by
                    intro u hu1 hu2
                    have ha1 : (lookupA c2 u).isSome = true := (hsubF u hu1).2
                    have ha2 : lookupA c2 u = none := (hfsF u hu2).1
                    rw [ha2] at ha1
                    exact Bool.noConfusion ha1
                  have happNd : (fsub ++ fs').Nodup :=
                    List.Nodup.append hsubFsNd hfsNd hdisj
                  refine List.nodup_cons.mpr ⟨?_, happNd⟩
                  intro hmem
                  rcases List.mem_append.mp hmem with hm | hm
                  · have ha := (hsubF _ hm).1
                    rw [lookupA_insertA, if_pos rfl] at ha
                    exact Option.noConfusion ha
                  · have ha2 := (hfsF _ hm).1
                    have ha1 : (lookupA c2 dependency.uri).isSome = true :=
                      hp12 _ (lookupA_insertA_self_isSome _ _ _)
                    rw [ha2] at ha1
                    exact Bool.noConfusion ha1
                · intro u hu
                  rcases List.mem_cons.mp hu with hu1 | hu2
                  · rw [hu1]
                    exact ⟨hlk, hp23 _ (hp12 _
                      (lookupA_insertA_self_isSome _ _ _))⟩
                  · rcases List.mem_append.mp hu2 with hu3 | hu3
                    · exact ⟨lookupA_none_of_preserves _ _ _ hp01
                        (hsubF u hu3).1, hp23 _ (hsubF u hu3).2⟩
                    · exact ⟨lookupA_none_of_preserves _ _ _
                        (cachePreserves_trans _ _ _ hp01 hp12)
                        (hfsF u hu3).1, (hfsF u hu3).2⟩
              · intro res fs h p hp
                obtain ⟨h1, _⟩ := okPair_inj _ _ _ _ h
                rw [← h1]
                rcases List.mem_cons.mp hp with hp1 | hp2
                · rw [hp1]
                  rw [lookupA_unionA_isSome, lookupA_unionA_isSome]
                  rw [lookupA_singleton_self_isSome]
                  rfl
                · rw [lookupA_unionA_isSome]
                  rw [hroots' p hp2]
                  exact Bool.or_true _
        · rcases hres : resolveLoop oci httpR sub rest
              (insertA cache dependency.uri (normalizeDeps md0)) with ⟨c2, r2⟩
          rw [resolveLoop_cons_leaf oci httpR sub a dependency rest cache md0
            c2 r2 hlk hr hlen hres]
          rcases r2 with e | ⟨res', fs'⟩
          · constructor
            · intro res fs h
              exact Except.noConfusion h
            · intro res fs h
              exact Except.noConfusion h
          · have hii := ih (insertA cache dependency.uri (normalizeDeps md0))
            rw [hres] at hii
            obtain ⟨hresNd, hfsNd, hfsF⟩ := hii.1 res' fs' rfl
            have hroots' := hii.2 res' fs' rfl
            have hp01 : CachePreserves cache
                (insertA cache dependency.uri (normalizeDeps md0)) :=
              cachePreserves_insertA _ _ _
            constructor
            · intro res fs h
              obtain ⟨h1, h2⟩ := okPair_inj _ _ _ _ h
              rw [← h1, ← h2]
              refine ⟨NodupKeys_unionA _ _ (NodupKeys_singleton _ _), ?_, ?_⟩
              · refine List.nodup_cons.mpr ⟨?_, hfsNd⟩
                intro hmem
                have ha := (hfsF _ hmem).1
                rw [lookupA_insertA, if_pos rfl] at ha
                exact Option.noConfusion ha
              · intro u hu
                rcases List.mem_cons.mp hu with hu1 | hu2
                · rw [hu1]
                  refine ⟨hlk, ?_⟩
                  have h2 := resolveLoop_cache_mono oci httpR sub hsubM rest
                    (insertA cache dependency.uri (normalizeDeps md0))
                  rw [hres] at h2
                  exact h2 _ (lookupA_insertA_self_isSome _ _ _)
                · exact ⟨lookupA_none_of_preserves _ _ _ hp01
                    (hfsF u hu2).1, (hfsF u hu2).2⟩
            · intro res fs h p hp
              obtain ⟨h1, _⟩ := okPair_inj _ _ _ _ h
              rw [← h1]
              rcases List.mem_cons.mp hp with hp1 | hp2
              · rw [hp1]
                rw [lookupA_unionA_isSome, lookupA_singleton_self_isSome]
                rfl
              · rw [lookupA_unionA_isSome]
                rw [hroots' p hp2]
                exact Bool.or_true _
    · rcases hres : resolveLoop oci httpR sub rest cache with ⟨c2, r2⟩
      rw [resolveLoop_cons_cached oci httpR sub a dependency rest cache md c2
        r2 hlk hres]
      rcases r2 with e | ⟨res', fs'⟩
      · constructor
        · intro res fs h
          exact Except.noConfusion h
        · intro res fs h
          exact Except.noConfusion h
      · have hii := ih cache
        rw [hres] at hii
        obtain ⟨hresNd, hfsNd, hfsF⟩ := hii.1 res' fs' rfl
        have hroots' := hii.2 res' fs' rfl
        constructor
        · intro res fs h
          obtain ⟨h1, h2⟩ := okPair_inj _ _ _ _ h
          rw [← h1, ← h2]
          exact ⟨NodupKeys_unionA _ _ (NodupKeys_singleton _ _), hfsNd, hfsF⟩
        · intro res fs h p hp
          obtain ⟨h1, _⟩ := okPair_inj _ _ _ _ h
          rw [← h1]
          rcases List.mem_cons.mp hp with hp1 | hp2
          · rw [hp1]
            rw [lookupA_unionA_isSome, lookupA_singleton_self_isSome]
            rfl
          · rw [lookupA_unionA_isSome]
            rw [hroots' p hp2]
            exact Bool.or_true _

theorem resolveGo_ok_props (oci httpR : ResolverFn) :
    ∀ fuel deps cache,
      OkProps cache (resolveGo oci httpR fuel deps cache) ∧
      (∀ res fs,
        (resolveGo oci httpR fuel deps cache).2 = Except.ok (res, fs) →
        ∀ p ∈ deps, (lookupA res p.2.uri).isSome = true) := by
  intro fuel
  induction fuel with
  | zero =>
    exact resolveLoop_ok_props oci httpR _
      (fun _ c => cachePreserves_refl c)
      (fun ds c res fs h => Except.noConfusion h)
  | succ f ih =>
    exact resolveLoop_ok_props oci httpR _
      (fun ds c => resolveGo_cache_mono oci httpR f ds c)
      (fun ds c => (ih ds c).1)

theorem pick_fail (oci httpR : ResolverFn) (u : String)
    (hfail : ∀ b md, oci u b ≠ Except.ok md ∧ httpR u b ≠ Except.ok md)
    (c : Bool) (pl : Bool) (md : Metadata)
    (h : (if c then oci else httpR) u pl = Except.ok md) : False := by
  cases c
  · exact (hfail pl md).2 h
  · exact (hfail pl md).1 h

theorem resolveLoop_failed_not_cached (oci httpR : ResolverFn) (sub : SubFn)
    (u : String)
    (hfail : ∀ b md, oci u b ≠ Except.ok md ∧ httpR u b ≠ Except.ok md)
    (hsubN : ∀ ds c, lookupA c u = none → lookupA (sub ds c).1 u = none) :
    ∀ deps cache, lookupA cache u = none →
      lookupA (resolveLoop oci httpR sub deps cache).1 u = none := by
  intro deps
  induction deps with
  | nil =>
    intro cache hnone
    exact hnone
  | cons pd rest ih =>
    intro cache hnone
    obtain ⟨a, dependency⟩ := pd
    rcases hlk : lookupA cache dependency.uri with _ | md
    · rcases hr : (if strEndsWith dependency.name ".oci" then oci else httpR)
          dependency.uri (strContainsSub dependency.name ".plain") with e | md0
      · rw [resolveLoop_cons_fetchErr oci httpR sub a dependency rest cache e
          hlk hr]
        exact hnone
      · have hne : ¬ dependency.uri = u := by
          intro he
          rw [he] at hr
          exact pick_fail oci httpR u hfail _ _ _ hr
        have hnone1 : lookupA
            (insertA cache dependency.uri (normalizeDeps md0)) u = none := by
          rw [lookupA_insertA, if_neg hne]
          exact hnone
        by_cases hlen : (normalizeDeps md0).dependencies.length > 0
        · rcases hs : sub (normalizeDeps md0).dependencies
              (insertA cache dependency.uri (normalizeDeps md0)) with ⟨c2, r2⟩
          have hnone2 : lookupA c2 u = none := by
            have h2 := hsubN (normalizeDeps md0).dependencies
              (insertA cache dependency.uri (normalizeDeps md0)) hnone1
            rw [hs] at h2
            exact h2
          rcases r2 with e | ⟨subs, fsub⟩
          · rw [resolveLoop_cons_subErr oci httpR sub a dependency rest cache
              md0 c2 e hlk hr hlen hs]
            exact hnone2
          · rcases hres : resolveLoop oci httpR sub rest c2 with ⟨c3, r3⟩
            rw [resolveLoop_cons_subOk oci httpR sub a dependency rest cache
              md0 c2 c3 subs fsub r3 hlk hr hlen hs hres]
            have h3 := ih c2 hnone2
            rw [hres] at h3
            exact h3
        · rcases hres : resolveLoop oci httpR sub rest
              (insertA cache dependency.uri (normalizeDeps md0)) with ⟨c2, r2⟩
          rw [resolveLoop_cons_leaf oci httpR sub a dependency rest cache md0
            c2 r2 hlk hr hlen hres]
          have h3 := ih _ hnone1
          rw [hres] at h3
          exact h3
    · rcases hres : resolveLoop oci httpR sub rest cache with ⟨c2, r2⟩
      rw [resolveLoop_cons_cached oci httpR sub a dependency rest cache md c2
        r2 hlk hres]
      have h3 := ih cache hnone
      rw [hres] at h3
      exact h3

theorem resolveLoop_dep_fails (oci httpR : ResolverFn) (sub : SubFn)
    (u : String)
    (hfail : ∀ b md, oci u b ≠ Except.ok md ∧ httpR u b ≠ Except.ok md)
    (hsubN : ∀ ds c, lookupA c u = none → lookupA (sub ds c).1 u = none) :
    ∀ deps cache, lookupA cache u = none →
      (∃ a d, (a, d) ∈ deps ∧ d.uri = u) →
      ∃ e, (resolveLoop oci httpR sub deps cache).2 = Except.error e := by
  intro deps
  induction deps with
  | nil =>
    intro cache _ hmem
    obtain ⟨_, _, hm, _⟩ := hmem
    simp at hm
  | cons pd rest ih =>
    intro cache hnone hmem
    obtain ⟨a0, dependency⟩ := pd
    obtain ⟨b, d, hm, hdu⟩ := hmem
    rcases List.mem_cons.mp hm with hm1 | hm2
    · have hdep : dependency.uri = u := by
        have : d = dependency := congrArg Prod.snd hm1
        rw [← this, hdu]
      have hlku : lookupA cache dependency.uri = none := by
        rw [hdep]
        exact hnone
      rcases hr : (if strEndsWith dependency.name ".oci" then oci else httpR)
          dependency.uri (strContainsSub dependency.name ".plain") with e | md0
      · rw [resolveLoop_cons_fetchErr oci httpR sub a0 dependency rest cache e
          hlku hr]
        exact ⟨e, rfl⟩
      · exfalso
        rw [hdep] at hr
        exact pick_fail oci httpR u hfail _ _ _ hr
    · rcases hlk : lookupA cache dependency.uri with _ | md
      · rcases hr : (if strEndsWith dependency.name ".oci" then oci else httpR)
            dependency.uri (strContainsSub dependency.name ".plain") with e | md0
        · rw [resolveLoop_cons_fetchErr oci httpR sub a0 dependency rest cache
            e hlk hr]
          exact ⟨e, rfl⟩
        · have hne : ¬ dependency.uri = u := by
            intro he
            rw [he] at hr
            exact pick_fail oci httpR u hfail _ _ _ hr
          have hnone1 : lookupA
              (insertA cache dependency.uri (normalizeDeps md0)) u = none := by
            rw [lookupA_insertA, if_neg hne]
            exact hnone
          by_cases hlen : (normalizeDeps md0).dependencies.length > 0
          · rcases hs : sub (normalizeDeps md0).dependencies
                (insertA cache dependency.uri (normalizeDeps md0)) with ⟨c2, r2⟩
            rcases r2 with e | ⟨subs, fsub⟩
            · rw [resolveLoop_cons_subErr oci httpR sub a0 dependency rest
                cache md0 c2 e hlk hr hlen hs]
              exact ⟨e, rfl⟩
            · have hnone2 : lookupA c2 u = none := by
                have h2 := hsubN (normalizeDeps md0).dependencies
                  (insertA cache dependency.uri (normalizeDeps md0)) hnone1
                rw [hs] at h2
                exact h2
              obtain ⟨e, he⟩ := ih c2 hnone2 ⟨b, d, hm2, hdu⟩
              rcases hres : resolveLoop oci httpR sub rest c2 with ⟨c3, r3⟩
              rw [resolveLoop_cons_subOk oci httpR sub a0 dependency rest
                cache md0 c2 c3 subs fsub r3 hlk hr hlen hs hres]
              rw [hres] at he
              replace he : r3 = Except.error e := he
              rw [he]
              exact ⟨e, rfl⟩
          · obtain ⟨e, he⟩ := ih
              (insertA cache dependency.uri (normalizeDeps md0)) hnone1
              ⟨b, d, hm2, hdu⟩
            rcases hres : resolveLoop oci httpR sub rest
                (insertA cache dependency.uri (normalizeDeps md0)) with ⟨c2, r2⟩
            rw [resolveLoop_cons_leaf oci httpR sub a0 dependency rest cache
              md0 c2 r2 hlk hr hlen hres]
            rw [hres] at he
            replace he : r2 = Except.error e := he
            rw [he]
            exact ⟨e, rfl⟩
      · obtain ⟨e, he⟩ := ih cache hnone ⟨b, d, hm2, hdu⟩
        rcases hres : resolveLoop oci httpR sub rest cache with ⟨c2, r2⟩
        rw [resolveLoop_cons_cached oci httpR sub a0 dependency rest cache md
          c2 r2 hlk hres]
        rw [hres] at he
        replace he : r2 = Except.error e := he
        rw [he]
        exact ⟨e, rfl⟩

theorem resolveGo_failed_not_cached (oci httpR : ResolverFn) (u : String)
    (hfail : ∀ b md, oci u b ≠ Except.ok md ∧ httpR u b ≠ Except.ok md) :
    ∀ fuel deps cache, lookupA cache u = none →
      lookupA (resolveGo oci httpR fuel deps cache).1 u = none := by
  intro fuel
  induction fuel with
  | zero =>
    exact resolveLoop_failed_not_cached oci httpR _ u hfail
      (fun _ _ h => h)
  | succ f ih =>
    exact resolveLoop_failed_not_cached oci httpR _ u hfail
      (fun ds c h => ih ds c h)

theorem resolveGo_dep_fails (oci httpR : ResolverFn) (u : String)
    (hfail : ∀ b md, oci u b ≠ Except.ok md ∧ httpR u b ≠ Except.ok md) :
    ∀ fuel deps cache, lookupA cache u = none →
      (∃ a d, (a, d) ∈ deps ∧ d.uri = u) →
      ∃ e, (resolveGo oci httpR fuel deps cache).2 = Except.error e := by
  intro fuel
  induction fuel with
  | zero =>
    exact resolveLoop_dep_fails oci httpR _ u hfail (fun _ _ h => h)
  | succ f ih =>
    exact resolveLoop_dep_fails oci httpR _ u hfail
      (fun ds c h => resolveGo_failed_not_cached oci httpR u hfail f ds c h)

theorem httpResolveMetadata_status_fail (decode : JsonDecoder) (net : Network)
    (rPlain : Bool) (uri : String) (plainHttp : Bool) (u0 : GoUrl)
    (resp : HttpResp)
    (hu : urlParse uri = some u0)
    (hnet : net (GoUrl.render
      { u0 with scheme := if rPlain || plainHttp then "http" else "https" }) =
      some resp)
    (hst : resp.statusCode > 300) :
    httpResolveMetadata decode net rPlain uri plainHttp =
      Except.error (GoError.fail ("Http get Error status: " ++ resp.status)) := by
  unfold httpResolveMetadata
  simp only [hu, hnet]
  rw [if_pos hst]

theorem httpResolveMetadata_ne_oof (decode : JsonDecoder) (net : Network)
    (rPlain : Bool) (uri : String) (plainHttp : Bool) :
    httpResolveMetadata decode net rPlain uri plainHttp ≠
      Except.error GoError.outOfFuel := by
  unfold httpResolveMetadata
  rcases hu : urlParse uri with _ | u0
  · intro h
    exact GoError.noConfusion (Except.error.inj h)
  · rcases hnet : net (GoUrl.render
        { u0 with scheme := if rPlain || plainHttp then "http" else "https" })
      with _ | resp
    · simp only [hnet]
      intro h
      exact GoError.noConfusion (Except.error.inj h)
    · simp only [hnet]
      by_cases hst : resp.statusCode > 300
      · rw [if_pos hst]
        intro h
        exact GoError.noConfusion (Except.error.inj h)
      · rw [if_neg hst]
        rcases hd : decode resp.body with _ | wire
        · intro h
          exact GoError.noConfusion (Except.error.inj h)
        · intro h
          exact Except.noConfusion h

/-- C1: for every metadata environment whose resolvable URIs form the finite
set `U` — cyclic dependency graphs included — `Resolve` run with recursion
allowance `U.length` never exhausts it (the walk terminates), and on success
the result binds each URI at most once, every requested dependency URI is
present, and the fetch log contains no URI twice: each URI is inserted into
the memo cache before its own dependency map is recursively resolved, so
the second encounter of a URI is a cache hit. -/
theorem Resolve_cycle_terminates_once (oci httpR : ResolverFn)
    (U : List String) (deps : List (String × Dependency))
    (hU : U.Nodup)
    (hdom : ∀ u b md, oci u b = Except.ok md ∨ httpR u b = Except.ok md →
      u ∈ U)
    (hociF : ∀ u b, oci u b ≠ Except.error GoError.outOfFuel)
    (httpF : ∀ u b, httpR u b ≠ Except.error GoError.outOfFuel) :
    (resolveGo oci httpR U.length deps []).2 ≠
      Except.error GoError.outOfFuel ∧
    ∀ res fs, (resolveGo oci httpR U.length deps []).2 =
        Except.ok (res, fs) →
      NodupKeys res ∧ fs.Nodup ∧
      ∀ p ∈ deps, (lookupA res p.2.uri).isSome = true := by
  constructor
  · exact resolveGo_no_oof oci httpR U hU hdom hociF httpF U.length deps []
      (uncov_le_length U [])
  · intro res fs h
    have hok := (resolveGo_ok_props oci httpR U.length deps []).1 res fs h
    have hroots := (resolveGo_ok_props oci httpR U.length deps []).2 res fs h
    exact ⟨hok.1, hok.2.1, hroots⟩

/-- Witness for C1 on the concrete two-package cycle a ↔ b: the walk
terminates with each URI exactly once in the result and each metadata
fetched exactly once. -/
theorem Resolve_cycle_terminates_once_witness :
    (resolveGo exOciRes exHttpRes exU.length [("a", exDepA)] []).2 =
      Except.ok ([("pkg://h/a@1.0.0", exMdA), ("pkg://h/b@1.0.0", exMdB)],
        ["pkg://h/a@1.0.0", "pkg://h/b@1.0.0"]) ∧
    (resolveGo exOciRes exHttpRes exU.length [("a", exDepA)] []).2 ≠
      Except.error GoError.outOfFuel ∧
    NodupKeys [("pkg://h/a@1.0.0", exMdA), ("pkg://h/b@1.0.0", exMdB)] ∧
    ["pkg://h/a@1.0.0", "pkg://h/b@1.0.0"].Nodup := by
  have hdom : ∀ u b md,
      exOciRes u b = Except.ok md ∨ exHttpRes u b = Except.ok md →
      u ∈ exU := by
    intro u b md h
    rcases h with h | h
    · exact Except.noConfusion h
    · unfold exHttpRes at h
      by_cases h1 : u = "pkg://h/a@1.0.0"
      · rw [h1]
        exact List.mem_cons_self _ _
      · rw [if_neg h1] at h
        by_cases h2 : u = "pkg://h/b@1.0.0"
        · rw [h2]
          exact List.mem_cons_of_mem _ (List.mem_cons_self _ _)
        · rw [if_neg h2] at h
          exact Except.noConfusion h
  have httpF : ∀ u b, exHttpRes u b ≠ Except.error GoError.outOfFuel := by
    intro u b
    unfold exHttpRes
    by_cases h1 : u = "pkg://h/a@1.0.0"
    · rw [if_pos h1]
      exact fun h => Except.noConfusion h
    · rw [if_neg h1]
      by_cases h2 : u = "pkg://h/b@1.0.0"
      · rw [if_pos h2]
        exact fun h => Except.noConfusion h
      · rw [if_neg h2]
        exact fun h => GoError.noConfusion (Except.error.inj h)
  have hthm := Resolve_cycle_terminates_once exOciRes exHttpRes exU
    [("a", exDepA)] (by decide) hdom
    (fun u b h => GoError.noConfusion (Except.error.inj h)) httpF
  refine ⟨rfl, hthm.1, (hthm.2 _ _ rfl).1, (hthm.2 _ _ rfl).2.1⟩

/-- C2: on success, `Deduplicate` keys every output entry by the surviving
metadata's full package URI, every survivor comes from the input, and no
input entry of the same major-version package identity has a strictly
greater semantic version; concretely, from versions 1.0.0, 1.2.0 and 2.0.0
of one package line, 1.2.0 and 2.0.0 survive. -/
theorem Deduplicate_groups_max_rekey :
    (∀ input out, Deduplicate input = Except.ok out →
      ∀ p ∈ out, p.1 = p.2.packageUri ∧ (∃ q ∈ input, q.2 = p.2) ∧
        ∀ q ∈ input, MajorVersionPackage q.2 = MajorVersionPackage p.2 →
          ¬ gtVer q.2 p.2) ∧
    Deduplicate exC2Input = Except.ok exC2Output := by
  constructor
  · intro input out h p hp
    obtain ⟨versioned, _, ho, hinv⟩ := Deduplicate_ok_inv input out h
    subst ho
    obtain ⟨hkey, q, hq, hq2⟩ := mem_rekey versioned p hp
    obtain ⟨hmq, hsrc, hmax⟩ := hinv.2.1 q hq
    rw [hq2] at hmq hmax
    refine ⟨hkey, ?_, ?_⟩
    · obtain ⟨qq, hqq, hqq2⟩ := hsrc
      exact ⟨qq, hqq, by rw [hqq2, hq2]⟩
    · intro q2 hq2mem heq
      have hq2mvp : MajorVersionPackage q2.2 = Except.ok q.1 := by
        rw [heq, hmq]
      exact hmax q2 hq2mem hq2mvp
  · rfl

/-- Witness for C2: the concrete three-version example deduplicates to the
expected two survivors, and in particular 1.0.0 does not beat 1.2.0. -/
theorem Deduplicate_groups_max_rekey_witness :
    Deduplicate exC2Input = Except.ok exC2Output ∧
    ¬ gtVer (exVerMd "1.0.0") (exVerMd "1.2.0") := by
  refine ⟨Deduplicate_groups_max_rekey.2, ?_⟩
  exact (Deduplicate_groups_max_rekey.1 exC2Input exC2Output
    Deduplicate_groups_max_rekey.2
    ("pkg://example.com/demo@1.2.0", exVerMd "1.2.0")
    (List.mem_cons_self _ _)).2.2
    ("a", exVerMd "1.0.0") (List.mem_cons_self _ _) rfl

/-- C3 counterexample: a response with status exactly 300 — which is
greater than or equal to 300 — is not treated as failure: the source checks
StatusCode strictly greater than 300, so the body is parsed and the
metadata returned. -/
theorem HttpResolveMetadata_status300_ok :
    exNet300 "https://h/p@1.0.0" =
      some { statusCode := 300, status := "300 Multiple Choices",
             body := "B" } ∧
    httpResolveMetadata exDecode exNet300 false "pkg://h/p@1.0.0" false =
      Except.ok { Metadata.ofWire exWire with
        resolverType := ResolverType.http, source := "B", plainHttp := false,
        checksum := sha256Hex "B" } :=
  ⟨rfl, rfl⟩

/-- C3 amended: `HttpResolver.ResolveMetadata` treats any response status
strictly greater than 300 as a failure, returning an error that surfaces
the status text and no metadata. -/
theorem HttpResolveMetadata_gt300_fails (decode : JsonDecoder) (net : Network)
    (rPlain : Bool) (uri : String) (plainHttp : Bool) (u0 : GoUrl)
    (resp : HttpResp)
    (hu : urlParse uri = some u0)
    (hnet : net (GoUrl.render
      { u0 with scheme := if rPlain || plainHttp then "http" else "https" }) =
      some resp)
    (hst : resp.statusCode > 300) :
    httpResolveMetadata decode net rPlain uri plainHttp =
      Except.error (GoError.fail ("Http get Error status: " ++ resp.status)) :=
  httpResolveMetadata_status_fail decode net rPlain uri plainHttp u0 resp hu
    hnet hst

/-- Witness for the amended C3: a 404 answer yields the transport error with
the status text. -/
theorem HttpResolveMetadata_gt300_fails_witness :
    httpResolveMetadata exDecode exNet404C3 false "pkg://h/p@1.0.0" false =
      Except.error (GoError.fail "Http get Error status: 404 Not Found") :=
  HttpResolveMetadata_gt300_fails exDecode exNet404C3 false "pkg://h/p@1.0.0"
    false { scheme := "pkg", host := "h", path := "/p@1.0.0" }
    { statusCode := 404, status := "404 Not Found", body := "" } rfl rfl
    (by decide)

/-- C4: when a dependency routed to plain HTTP gets a 404 answer for its
metadata (and the registry transport cannot serve that URI either), the
whole `Resolve` run returns an error — not the embedding's fuel marker —
and the final memo cache holds no entry for that URI: the cache is written
only after a successful fetch. -/
theorem Resolve_http404_error_uncached (oci : ResolverFn)
    (decode : JsonDecoder) (net : Network) (rPlain : Bool) (U : List String)
    (deps : List (String × Dependency)) (a : String) (d : Dependency)
    (u0 : GoUrl) (resp : HttpResp)
    (hU : U.Nodup)
    (hdom : ∀ u b md, oci u b = Except.ok md ∨
      httpResolveMetadata decode net rPlain u b = Except.ok md → u ∈ U)
    (hociF : ∀ u b, oci u b ≠ Except.error GoError.outOfFuel)
    (hmem : (a, d) ∈ deps)
    (hoci : ∀ b md, oci d.uri b ≠ Except.ok md)
    (hu : urlParse d.uri = some u0)
    (h404 : ∀ b : Bool, net (GoUrl.render
      { u0 with scheme := if rPlain || b then "http" else "https" }) =
      some resp)
    (hstatus : resp.statusCode = 404) :
    (∃ e, (resolveGo oci (httpResolveMetadata decode net rPlain) U.length
        deps []).2 = Except.error e ∧ e ≠ GoError.outOfFuel) ∧
    lookupA (resolveGo oci (httpResolveMetadata decode net rPlain) U.length
      deps []).1 d.uri = none := by
  have hgt : resp.statusCode > 300 := by
    rw [hstatus]
    decide
  have hhfail : ∀ b md,
      httpResolveMetadata decode net rPlain d.uri b ≠ Except.ok md := by
    intro b md hok
    rw [httpResolveMetadata_status_fail decode net rPlain d.uri b u0 resp hu
      (h404 b) hgt] at hok
    exact Except.noConfusion hok
  have hfail : ∀ b md, oci d.uri b ≠ Except.ok md ∧
      httpResolveMetadata decode net rPlain d.uri b ≠ Except.ok md :=
    fun b md => ⟨hoci b md, hhfail b md⟩
  obtain ⟨e, he⟩ := resolveGo_dep_fails oci _ d.uri hfail U.length deps [] rfl
    ⟨a, d, hmem, rfl⟩
  have hnoof := resolveGo_no_oof oci _ U hU hdom hociF
    (fun u b => httpResolveMetadata_ne_oof decode net rPlain u b) U.length
    deps [] (uncov_le_length U [])
  refine ⟨⟨e, he, ?_⟩, ?_⟩
  · intro hcontra
    rw [hcontra] at he
    exact hnoof he
  · exact resolveGo_failed_not_cached oci _ d.uri hfail U.length deps [] rfl

/-- Witness for C4: a concrete dependency whose metadata URL answers 404
under both schemes; the run errors and the URI stays uncached. -/
theorem Resolve_http404_error_uncached_witness :
    (∃ e, (resolveGo exOciRes (httpResolveMetadata exDecode exNet404 false)
        (List.length ([] : List String)) [("x", exDepX)] []).2 =
      Except.error e ∧ e ≠ GoError.outOfFuel) ∧
    lookupA (resolveGo exOciRes (httpResolveMetadata exDecode exNet404 false)
      (List.length ([] : List String)) [("x", exDepX)] []).1 exDepX.uri =
      none := by
  have hdom : ∀ u b md, exOciRes u b = Except.ok md ∨
      httpResolveMetadata exDecode exNet404 false u b = Except.ok md →
      u ∈ ([] : List String) := by
    intro u b md h
    rcases h with h | h
    · exact Except.noConfusion h
    · exfalso
      unfold httpResolveMetadata at h
      rcases hu2 : urlParse u with _ | u0
      · rw [hu2] at h
        exact Except.noConfusion h
      · simp only [hu2] at h
        by_cases hc : GoUrl.render
            { u0 with scheme := if false || b then "http" else "https" } =
              "https://h/x@1.0.0" ∨
            GoUrl.render
            { u0 with scheme := if false || b then "http" else "https" } =
              "http://h/x@1.0.0"
        · have hn : exNet404 (GoUrl.render
              { u0 with scheme := if false || b then "http" else "https" }) =
              some { statusCode := 404, status := "404 Not Found",
                     body := "" } := by
            unfold exNet404
            rw [if_pos hc]
          rw [hn] at h
          exact Except.noConfusion h
        · have hn : exNet404 (GoUrl.render
              { u0 with scheme := if false || b then "http" else "https" }) =
              none := by
            unfold exNet404
            rw [if_neg hc]
          rw [hn] at h
          exact Except.noConfusion h
  exact Resolve_http404_error_uncached exOciRes exDecode exNet404 false []
    [("x", exDepX)] "x" exDepX
    { scheme := "pkg", host := "h", path := "/x@1.0.0" }
    { statusCode := 404, status := "404 Not Found", body := "" }
    List.nodup_nil hdom
    (fun u b h => GoError.noConfusion (Except.error.inj h))
    (List.mem_cons_self _ _)
    (fun b md h => Except.noConfusion h)
    rfl (fun b => by cases b <;> rfl) rfl

/-- C5 counterexample: an unparseable Version does not produce a returned
error: `semver.MustParse` panics inside the grouping loop, even though the
package URI itself parses fine. -/
theorem Deduplicate_badVersion_panics :
    (urlParse exBadVer.packageUri).isSome = true ∧
    semverParse exBadVer.version = none ∧
    Deduplicate [("q", exBadVer)] =
      Except.error (GoError.panicked "Invalid Semantic Version") :=
  ⟨rfl, rfl, rfl⟩

/-- C5 amended: if any input metadata has an unparseable PackageUri or an
unparseable Version, `Deduplicate` fails — by a returned error for a bad
URI, by a `semver.MustParse` panic for a bad version. -/
theorem Deduplicate_unparseable_fails (input : List (String × Metadata))
    (h : ∃ q ∈ input, urlParse q.2.packageUri = none ∨
      semverParse q.2.version = none) :
    ∃ e, Deduplicate input = Except.error e := by
  obtain ⟨q, hq, hbad⟩ := h
  unfold Deduplicate
  rcases hd : dedupGo input [] with e | versioned
  · exact ⟨e, rfl⟩
  · exfalso
    have hall := dedupGo_ok_all_parse input [] versioned hd q hq
    rcases hbad with hb | hb
    · rw [hb] at hall
      exact Bool.noConfusion hall.1
    · rw [hb] at hall
      exact Bool.noConfusion hall.2

/-- Witness for the amended C5: a package URI containing a control
character fails URL parsing, and Deduplicate fails on it. -/
theorem Deduplicate_unparseable_fails_witness :
    ∃ e, Deduplicate [("r", exBadUri)] = Except.error e :=
  Deduplicate_unparseable_fails [("r", exBadUri)]
    ⟨("r", exBadUri), List.mem_cons_self _ _, Or.inl rfl⟩

/-- C6 (code bug): `MajorVersionPackage` renders the major component with
the %x format verb, that is in lowercase hexadecimal: major 10 renders as
a, not 10, so the rendering coincides with decimal only for majors 0
through 9 and the consistent decimal rendering the spec requires does not
hold. -/
theorem MajorVersionPackage_hex_major :
    MajorVersionPackage exMd10 = Except.ok "package://example.com/demo@a" ∧
    toHex 10 = "a" ∧
    MajorVersionPackage exMd10 ≠ Except.ok "package://example.com/demo@10" := by
  refine ⟨rfl, rfl, ?_⟩
  intro h
  have hstr : "package://example.com/demo@a" = "package://example.com/demo@10" :=
    Except.ok.inj ((rfl :
      MajorVersionPackage exMd10 =
        Except.ok "package://example.com/demo@a").symm.trans h)
  exact absurd hstr (by decide)

/-- C7: `Deduplicate` is idempotent: each survivor is alone in its
major-version group and already keyed by its package URI, so a second
application reproduces the output exactly. -/
theorem Deduplicate_idempotent (input out : List (String × Metadata))
    (h : Deduplicate input = Except.ok out) :
    Deduplicate out = Except.ok out := by
  obtain ⟨hmv, hnd, hkey, hndk⟩ := Deduplicate_out_shape input out h
  unfold Deduplicate
  rw [dedupGo_distinct out [] hmv hnd (fun p hp => by simp [keysA])]
  show Except.ok (rekey ([] ++ out.map (fun p => (groupKeyD p.2, p.2)))) =
    Except.ok out
  rw [List.nil_append]
  show Except.ok (List.foldl (fun acc2 q => insertA acc2 q.2.packageUri q.2) []
    (out.map (fun p => (groupKeyD p.2, p.2)))) = Except.ok out
  rw [rekey_values out [] (fun p hp => ⟨hkey p hp, by simp [keysA]⟩) hndk]
  rw [List.nil_append]

/-- Witness for C7 on a concrete one-entry map. -/
theorem Deduplicate_idempotent_witness :
    Deduplicate exC7In = Except.ok exC7Out ∧
    Deduplicate exC7Out = Except.ok exC7Out :=
  ⟨rfl, Deduplicate_idempotent exC7In exC7Out rfl⟩

/-- C8: the HTTP ResolveArchive never fails on the response status: whenever
the GET against PackageZipUrl returns a response — of any status — the body
is returned as the archive bytes, with no status check and no checksum
verification. -/
theorem HttpResolveArchive_ignores_status (net : Network)
    (metadata : Metadata) (resp : HttpResp)
    (h : net metadata.packageZipUrl = some resp) :
    httpResolveArchive net metadata = Except.ok resp.body := by
  unfold httpResolveArchive
  simp only [h]

/-- Witness for C8: a 500 answer still yields the body as archive bytes. -/
theorem HttpResolveArchive_ignores_status_witness :
    exRespZip.statusCode = 500 ∧
    httpResolveArchive exNetZip exMdZip = Except.ok "zipbytes" :=
  ⟨rfl, HttpResolveArchive_ignores_status exNetZip exMdZip exRespZip rfl⟩

/-- C9: with a parseable package URI, `Exists` never returns a non-nil
error, and a stat failure other than not-exist — for example a permission
error — reports the package as already cached, (true, nil). -/
theorem ExistsGo_stat_error_true (stat : String → StatResult)
    (basePath : String) (metadata : Metadata) (u0 : GoUrl) (msg : String)
    (hu : urlParse metadata.packageUri = some u0)
    (hstat : stat (pklGetRelativePath basePath u0) =
      StatResult.statError msg) :
    existsGo stat basePath metadata = Except.ok true ∧
    ∀ st2 : String → StatResult,
      ∃ b, existsGo st2 basePath metadata = Except.ok b := by
  constructor
  · unfold existsGo
    simp only [hu, hstat]
  · intro st2
    unfold existsGo
    simp only [hu]
    rcases st2 (pklGetRelativePath basePath u0) with _ | _ | m
    · exact ⟨true, rfl⟩
    · exact ⟨false, rfl⟩
    · exact ⟨true, rfl⟩

/-- Witness for C9: a permission-style stat failure reports cached. -/
theorem ExistsGo_stat_error_true_witness :
    existsGo (fun _ => StatResult.statError "permission denied") "/base"
      exMdStat = Except.ok true :=
  (ExistsGo_stat_error_true
    (fun _ => StatResult.statError "permission denied") "/base" exMdStat
    { scheme := "pkg", host := "h", path := "/s@1.0.0" } "permission denied"
    rfl rfl).1

/-- C10: metadata returned by the OCI ResolveMetadata always carries
PlainHttp at its false zero value, whatever the plainHttp argument was, so
ResolveArchive on such metadata always selects the default client — the
plaintext client is irrelevant to its result. -/
theorem OciResolveMetadata_plainHttp_false (client plainClient : RegistryClient)
    (decode : JsonDecoder) (uri : String) (plainHttp : Bool) (md : Metadata)
    (h : ociResolveMetadata client plainClient decode uri plainHttp =
      Except.ok md) :
    md.plainHttp = false ∧
    ∀ p2 : RegistryClient,
      ociResolveArchive client p2 md = ociResolveArchive client plainClient md := by
  have hpl : md.plainHttp = false := by
    unfold ociResolveMetadata at h
    rcases href : pklUriToRef uri with e | ref <;> simp only [href] at h
    · exact Except.noConfusion h
    · rcases hp : (if plainHttp then plainClient else client) ref false
        with e | result <;> simp only [hp] at h
      · exact Except.noConfusion h
      · rcases hd : decode result.metadataData with _ | wire <;>
          simp only [hd] at h
        · exact Except.noConfusion h
        · have h2 := Except.ok.inj h
          rw [← h2]
          rfl
  refine ⟨hpl, ?_⟩
  intro p2
  unfold ociResolveArchive
  rw [hpl]
  rfl

/-- Witness for C10: a concrete pull with the plaintext flag set still
yields PlainHttp false, and the archive fetch ignores the plaintext
client. -/
theorem OciResolveMetadata_plainHttp_false_witness :
    (∃ md, ociResolveMetadata exClient exPlainClient
        (fun _ => some exWire) "pkg://h/p@1.0.0" false = Except.ok md ∧
      md.plainHttp = false ∧
      ociResolveArchive exClient exPlainClient md =
        ociResolveArchive exClient exClient md) := by
  refine ⟨exMdOci, rfl, ?_, ?_⟩
  · exact (OciResolveMetadata_plainHttp_false exClient exPlainClient
      (fun _ => some exWire) "pkg://h/p@1.0.0" false _ rfl).1
  · exact ((OciResolveMetadata_plainHttp_false exClient exPlainClient
      (fun _ => some exWire) "pkg://h/p@1.0.0" false _ rfl).2 exClient).symm

end Hpkl
